import Mathlib

set_option maxRecDepth 16384

/-!
Verification of the SideRedis key-space indexer and connection manager.

The development embeds the `_PrefixTree` trie of `side_redis/ui/keys_browser.py`
(`insert`, `recount`, `to_nodes`), the key splitting on the `:` delimiter, and the
state-transition behaviour of `ThreadSafeRedisManager` in `side_redis/redis_client.py`
(`connect`, `disconnect`, `select_db`, `execute`) together with the browser's
`_try_exact_key` and the `_load_all` drain loop, and proves or refutes the stated
properties of these components.
-/

/-! ## The trie data model (`_PrefixTree`) -/

/-- A node of the prefix trie: `children` is `None` or a dict (association list in
insertion order), plus the `is_key` flag and the cached `count`. -/
inductive PrefixTree : Type where
  | node (children : Option (List (String × PrefixTree))) (is_key : Bool) (count : Nat)

/-- Python `_PrefixTree.__init__`: no children, not a key, count 0. -/
def emptyTree : PrefixTree := .node none false 0

def PrefixTree.childrenOpt : PrefixTree → Option (List (String × PrefixTree))
  | .node cs _ _ => cs

def PrefixTree.isKeyFlag : PrefixTree → Bool
  | .node _ k _ => k

def PrefixTree.countField : PrefixTree → Nat
  | .node _ _ n => n

/-- Dictionary lookup `children[part]` on the association list. -/
def findSeg (s : String) : List (String × PrefixTree) → Option PrefixTree
  | [] => none
  | (s', c) :: rest => if s' = s then some c else findSeg s rest

/-- Python `_PrefixTree.insert(parts)`: walk/create the path, mark the terminal node as a key.
A missing child is appended at the end (dict insertion order); an existing child is
updated in place. -/
def PrefixTree.insert : PrefixTree → List String → PrefixTree
  | .node cs _ n, [] => .node cs true n
  | .node cs k n, s :: rest =>
    let cs0 := cs.getD []
    match findSeg s cs0 with
    | some c => .node (some (cs0.map (fun p => if p.1 = s then (p.1, insert c rest) else p))) k n
    | none => .node (some (cs0 ++ [(s, insert emptyTree rest)])) k n

mutual
/-- Python `_PrefixTree.recount(include_children)`: returns the updated node and the returned
total.  A childless node gets `1 if is_key else 0`; with `include_children=True` an
inner node gets `int(is_key)` plus the recursive recounts of all children. -/
def PrefixTree.recount : PrefixTree → Bool → PrefixTree × Nat
  | .node none k _, _ =>
    let n := if k then 1 else 0
    (.node none k n, n)
  | .node (some cs) k _, true =>
    let r := recountList cs
    let total := (if k then 1 else 0) + r.2
    (.node (some r.1) k total, total)
  | .node (some cs) k _, false =>
    let total := if k then 1 else 0
    (.node (some cs) k total, total)

def recountList : List (String × PrefixTree) → List (String × PrefixTree) × Nat
  | [] => ([], 0)
  | (s, c) :: rest =>
    let r := PrefixTree.recount c true
    let rr := recountList rest
    ((s, r.1) :: rr.1, r.2 + rr.2)
end

/-! ## Key splitting (`key.split(":")`) -/

/-- Python `str.split` on the single-character separator `:`, on the character list. -/
def splitChars : List Char → List (List Char)
  | [] => [[]]
  | c :: rest =>
    match splitChars rest with
    | [] => [[]]
    | p :: ps => if c = ':' then [] :: p :: ps else (c :: p) :: ps

/-- Python `key.split(SEPARATOR)` with `SEPARATOR = ":"`. -/
def splitKey (s : String) : List String := (splitChars s.data).map (fun l => ⟨l⟩)

/-- Building a trie from a list of component paths by repeated insertion. -/
def buildTrie (paths : List (List String)) : PrefixTree :=
  paths.foldl PrefixTree.insert emptyTree

/-- Building a trie from a list of key strings, each split on `:` as in
`self._prefix_tree.insert(key.split(SEPARATOR))`. -/
def buildTrieKeys (ks : List String) : PrefixTree :=
  ks.foldl (fun t k => t.insert (splitKey k)) emptyTree

/-! ## Specification-level trie observations -/

mutual
/-- The number of `is_key` nodes in the subtree (the node itself included). -/
def keyCount : PrefixTree → Nat
  | .node none k _ => if k then 1 else 0
  | .node (some cs) k _ => (if k then 1 else 0) + keyCountList cs

def keyCountList : List (String × PrefixTree) → Nat
  | [] => 0
  | (_, c) :: rest => keyCount c + keyCountList rest
end

/-- Walk a component path down the trie. -/
def subtreeAt : PrefixTree → List String → Option PrefixTree
  | t, [] => some t
  | .node none _ _, _ :: _ => none
  | .node (some cs) _ _, s :: rest =>
    match findSeg s cs with
    | some c => subtreeAt c rest
    | none => none

/-- Whether the node at a component path exists and carries the `is_key` flag. -/
def isKeyAt (t : PrefixTree) (p : List String) : Bool :=
  ((subtreeAt t p).map PrefixTree.isKeyFlag).getD false

/-- Predicate `isUnder q p` holds when the path `q` is a component-wise prefix of the path `p`. -/
def isUnder : List String → List String → Bool
  | [], _ => true
  | _ :: _, [] => false
  | a :: as, b :: bs => a == b && isUnder as bs

mutual
/-- All component paths of `is_key` nodes, in trie order. -/
def keyPaths : PrefixTree → List (List String)
  | .node none k _ => if k then [[]] else []
  | .node (some cs) k _ => (if k then [[]] else []) ++ keyPathsList cs

def keyPathsList : List (String × PrefixTree) → List (List String)
  | [] => []
  | (s, c) :: rest => (keyPaths c).map (s :: ·) ++ keyPathsList rest
end

/-- The child segments of an association list are pairwise distinct (always true of a
Python dict). -/
def nodupSegs : List (String × PrefixTree) → Bool
  | [] => true
  | (s, _) :: rest => !((rest.map (·.1)).contains s) && nodupSegs rest

mutual
/-- Well-formedness: at every node the child segments are pairwise distinct, as they
are in a Python dict. -/
def wfb : PrefixTree → Bool
  | .node none _ _ => true
  | .node (some cs) _ _ => nodupSegs cs && wfbList cs

def wfbList : List (String × PrefixTree) → Bool
  | [] => true
  | (_, c) :: rest => wfb c && wfbList rest
end

/-! ## Basic lemmas about the association-list dictionary -/

theorem findSeg_append_self {s : String} {cs : List (String × PrefixTree)} {c : PrefixTree}
    (h : findSeg s cs = none) : findSeg s (cs ++ [(s, c)]) = some c := by
  induction cs with
  | nil => simp [findSeg]
  | cons hd tl ih =>
    simp only [findSeg] at h
    by_cases hcond : hd.1 = s
    · rw [if_pos hcond] at h
      cases h
    · rw [if_neg hcond] at h
      simp [findSeg, hcond, ih h]

theorem findSeg_append_other {s s' : String} {cs : List (String × PrefixTree)}
    {c : PrefixTree} (h : s' ≠ s) :
    findSeg s' (cs ++ [(s, c)]) = findSeg s' cs := by
  induction cs with
  | nil =>
    have : ¬s = s' := fun hh => h hh.symm
    simp [findSeg, this]
  | cons hd tl ih =>
    by_cases hcond : hd.1 = s'
    · simp [findSeg, hcond]
    · simp [findSeg, hcond, ih]

theorem findSeg_map_update (s s' : String) (f : PrefixTree → PrefixTree) :
    ∀ cs : List (String × PrefixTree),
    findSeg s' (cs.map (fun p => if p.1 = s then (p.1, f p.2) else p)) =
      if s' = s then (findSeg s cs).map f else findSeg s' cs
  | [] => by by_cases h : s' = s <;> simp [findSeg, h]
  | (hs, hc) :: tl => by
    have ih := findSeg_map_update s s' f tl
    by_cases h1 : hs = s
    · have hhead : (if (hs, hc).1 = s then ((hs, hc).1, f (hs, hc).2) else (hs, hc))
          = (hs, f hc) := by simp [h1]
      rw [List.map_cons, hhead]
      by_cases h2 : s' = hs
      · subst h2
        simp [findSeg, ih, h1]
      · have h2' : ¬hs = s' := fun hh => h2 hh.symm
        have h3 : ¬s' = s := fun hh => h2 (hh.trans h1.symm)
        simp [findSeg, ih, h2', h3]
    · have hhead : (if (hs, hc).1 = s then ((hs, hc).1, f (hs, hc).2) else (hs, hc))
          = (hs, hc) := by simp [h1]
      rw [List.map_cons, hhead]
      by_cases h2 : s' = hs
      · subst h2
        have h1' : ¬s' = s := h1
        simp [findSeg, h1']
      · have h2' : ¬hs = s' := fun hh => h2 hh.symm
        simp [findSeg, ih, h2', h1]

theorem findSeg_map_value {s : String} (g : PrefixTree → PrefixTree) :
    ∀ cs : List (String × PrefixTree),
    findSeg s (cs.map (fun p => (p.1, g p.2))) = (findSeg s cs).map g
  | [] => by simp [findSeg]
  | (hs, hc) :: tl => by
    by_cases h : hs = s
    · simp [findSeg, h]
    · simp [findSeg, h, findSeg_map_value g tl]

theorem findSeg_none_mem {s : String} :
    ∀ {cs : List (String × PrefixTree)}, findSeg s cs = none → ∀ p ∈ cs, p.1 ≠ s := by
  intro cs
  induction cs with
  | nil => intro _ p hp; cases hp
  | cons hd tl ih =>
    intro h p hp
    simp only [findSeg] at h
    by_cases hcond : hd.1 = s
    · rw [if_pos hcond] at h; cases h
    · rw [if_neg hcond] at h
      rcases List.mem_cons.mp hp with hp | hp
      · rw [hp]; exact hcond
      · exact ih h p hp

/-! ## Idempotence of `insert` -/

theorem map_update_idem (s : String) (v : PrefixTree) (cs : List (String × PrefixTree)) :
    (cs.map (fun p => if p.1 = s then (p.1, v) else p)).map
        (fun p => if p.1 = s then (p.1, v) else p) =
      cs.map (fun p => if p.1 = s then (p.1, v) else p) := by
  rw [List.map_map]
  apply List.map_congr_left
  intro p _
  by_cases h : p.1 = s
  · simp [Function.comp, h]
  · simp [Function.comp, h]

theorem insert_insert (p : List String) : ∀ t : PrefixTree, (t.insert p).insert p = t.insert p := by
  induction p with
  | nil =>
    intro t
    cases t with
    | node cs k n => simp [PrefixTree.insert]
  | cons s rest ih =>
    intro t
    cases t with
    | node cs k n =>
      cases hf : findSeg s (cs.getD []) with
      | some c =>
        have h1 : (PrefixTree.node cs k n).insert (s :: rest) =
            .node (some ((cs.getD []).map
              (fun q => if q.1 = s then (q.1, PrefixTree.insert c rest) else q))) k n := by
          simp only [PrefixTree.insert, hf]
        have hf2 : findSeg s ((cs.getD []).map
            (fun q => if q.1 = s then (q.1, PrefixTree.insert c rest) else q)) =
            some (PrefixTree.insert c rest) := by
          have := findSeg_map_update s s (fun _ => PrefixTree.insert c rest) (cs.getD [])
          simp only [if_pos rfl, hf] at this
          exact this
        have h2 : ((PrefixTree.node cs k n).insert (s :: rest)).insert (s :: rest) =
            .node (some (((cs.getD []).map
                (fun q => if q.1 = s then (q.1, PrefixTree.insert c rest) else q)).map
              (fun q => if q.1 = s then
                (q.1, PrefixTree.insert (PrefixTree.insert c rest) rest) else q))) k n := by
          rw [h1]
          simp only [PrefixTree.insert, hf2, Option.getD_some]
        rw [h2, h1, ih, map_update_idem]
      | none =>
        have h1 : (PrefixTree.node cs k n).insert (s :: rest) =
            .node (some ((cs.getD []) ++ [(s, PrefixTree.insert emptyTree rest)])) k n := by
          simp only [PrefixTree.insert, hf]
        have hf2 : findSeg s ((cs.getD []) ++ [(s, PrefixTree.insert emptyTree rest)]) =
            some (PrefixTree.insert emptyTree rest) := findSeg_append_self hf
        have h2 : ((PrefixTree.node cs k n).insert (s :: rest)).insert (s :: rest) =
            .node (some (((cs.getD []) ++ [(s, PrefixTree.insert emptyTree rest)]).map
              (fun q => if q.1 = s then
                (q.1, PrefixTree.insert (PrefixTree.insert emptyTree rest) rest) else q))) k n := by
          rw [h1]
          simp only [PrefixTree.insert, hf2, Option.getD_some]
        rw [h2, h1, ih]
        congr 2
        rw [List.map_append]
        have hl : (cs.getD []).map
            (fun q => if q.1 = s then (q.1, PrefixTree.insert emptyTree rest) else q) =
            cs.getD [] := by
          conv_rhs => rw [show (cs.getD [] : List (String × PrefixTree)) =
            (cs.getD []).map id from (List.map_id _).symm]
          apply List.map_congr_left
          intro q hq
          rw [if_neg (findSeg_none_mem hf q hq)]
          rfl
        rw [hl]
        simp

/-- Repeated insertion of the same component path. -/
def iterateInsert (t : PrefixTree) (p : List String) : Nat → PrefixTree
  | 0 => t
  | n + 1 => (iterateInsert t p n).insert p

theorem iterateInsert_eq_insert (t : PrefixTree) (p : List String) :
    ∀ n, 1 ≤ n → iterateInsert t p n = t.insert p := by
  intro n
  induction n with
  | zero => intro h; cases h
  | succ m ih =>
    intro _
    cases Nat.eq_zero_or_pos m with
    | inl h0 => subst h0; rfl
    | inr hpos =>
      show (iterateInsert t p m).insert p = t.insert p
      rw [ih hpos, insert_insert]

/-! ## `recount` computes the subtree key counts -/

mutual
theorem recount_snd : ∀ t : PrefixTree, (t.recount true).2 = keyCount t
  | .node none k n => by simp [PrefixTree.recount, keyCount]
  | .node (some cs) k n => by
    have h := recountList_snd cs
    simp [PrefixTree.recount, keyCount, h]

theorem recountList_snd : ∀ cs : List (String × PrefixTree),
    (recountList cs).2 = keyCountList cs
  | [] => by simp [recountList, keyCountList]
  | (s, c) :: rest => by
    have h1 := recount_snd c
    have h2 := recountList_snd rest
    simp [recountList, keyCountList, h1, h2]
end

theorem recountList_fst : ∀ cs : List (String × PrefixTree),
    (recountList cs).1 = cs.map (fun p => (p.1, (p.2.recount true).1))
  | [] => by simp [recountList]
  | (s, c) :: rest => by
    simp [recountList, recountList_fst rest]

theorem recount_countField : ∀ t : PrefixTree, ((t.recount true).1).countField = keyCount t
  | .node none k n => by simp [PrefixTree.recount, keyCount, PrefixTree.countField]
  | .node (some cs) k n => by
    simp [PrefixTree.recount, keyCount, PrefixTree.countField, recountList_snd cs]

theorem subtreeAt_recount (q : List String) :
    ∀ t : PrefixTree,
    subtreeAt (t.recount true).1 q = (subtreeAt t q).map (fun s => (s.recount true).1) := by
  induction q with
  | nil => intro t; simp [subtreeAt]
  | cons s rest ih =>
    intro t
    cases t with
    | node cso k n =>
      cases cso with
      | none => simp [PrefixTree.recount, subtreeAt]
      | some cs =>
        simp only [PrefixTree.recount, subtreeAt, recountList_fst cs]
        rw [findSeg_map_value (fun c => (c.recount true).1) cs]
        cases hf : findSeg s cs with
        | none => simp
        | some c => simp [ih c]

/-! ## C2: idempotent insertion -/

/-- C2: insertion into the KeyspaceIndex is idempotent: inserting the same key
(split on `:`) n ≥ 1 times into any trie yields the same trie as inserting it once
(hence, after `recount`, the same count at every node), and re-inserting an
already-present key changes nothing. -/
theorem C2_insert_idempotent (t : PrefixTree) (k : String) (n : Nat) (h : 1 ≤ n) :
    iterateInsert t (splitKey k) n = t.insert (splitKey k)
    ∧ (t.insert (splitKey k)).insert (splitKey k) = t.insert (splitKey k)
    ∧ (iterateInsert t (splitKey k) n).recount true = (t.insert (splitKey k)).recount true := by
  refine ⟨iterateInsert_eq_insert t (splitKey k) n h, insert_insert (splitKey k) t, ?_⟩
  rw [iterateInsert_eq_insert t (splitKey k) n h]

/-- C2 witness: inserting "user:1" three times into the empty trie concretely equals
inserting it once. -/
theorem C2_insert_idempotent_witness :
    1 ≤ 3
    ∧ (iterateInsert emptyTree (splitKey "user:1") 3 = emptyTree.insert (splitKey "user:1")
      ∧ (emptyTree.insert (splitKey "user:1")).insert (splitKey "user:1")
          = emptyTree.insert (splitKey "user:1")
      ∧ (iterateInsert emptyTree (splitKey "user:1") 3).recount true
          = (emptyTree.insert (splitKey "user:1")).recount true) :=
  ⟨by decide, C2_insert_idempotent emptyTree "user:1" 3 (by decide)⟩

/-! ## Semantics of `insert`: which paths are keys -/

theorem isKeyAt_nil (cs : Option (List (String × PrefixTree))) (k : Bool) (n : Nat) :
    isKeyAt (.node cs k n) [] = k := by
  simp [isKeyAt, subtreeAt, PrefixTree.isKeyFlag]

theorem isKeyAt_cons_none (k : Bool) (n : Nat) (s : String) (qs : List String) :
    isKeyAt (.node none k n) (s :: qs) = false := by
  simp [isKeyAt, subtreeAt]

theorem isKeyAt_cons_some (cs : List (String × PrefixTree)) (k : Bool) (n : Nat)
    (s : String) (qs : List String) :
    isKeyAt (.node (some cs) k n) (s :: qs) =
      match findSeg s cs with
      | some c => isKeyAt c qs
      | none => false := by
  simp only [isKeyAt, subtreeAt]
  cases findSeg s cs <;> simp

theorem isKeyAt_emptyTree (q : List String) : isKeyAt emptyTree q = false := by
  cases q with
  | nil => simp [emptyTree, isKeyAt_nil]
  | cons s qs => simp [emptyTree, isKeyAt_cons_none]

theorem isKeyAt_insert (p : List String) :
    ∀ (t : PrefixTree) (q : List String),
    isKeyAt (t.insert p) q = true ↔ (q = p ∨ isKeyAt t q = true) := by
  induction p with
  | nil =>
    intro t q
    cases t with
    | node cs k n =>
      cases q with
      | nil => simp [PrefixTree.insert, isKeyAt_nil]
      | cons s qs =>
        cases cs with
        | none => simp [PrefixTree.insert, isKeyAt_cons_none]
        | some l => simp [PrefixTree.insert, isKeyAt_cons_some]
  | cons s rest ih =>
    intro t q
    cases t with
    | node cs k n =>
      cases cs with
      | none =>
        have h1 : (PrefixTree.node none k n).insert (s :: rest) =
            .node (some [(s, emptyTree.insert rest)]) k n := by
          simp [PrefixTree.insert, findSeg]
        rw [h1]
        cases q with
        | nil => simp [isKeyAt_nil]
        | cons s' qs =>
          by_cases hs : s = s'
          · subst hs
            have hfind : findSeg s [(s, emptyTree.insert rest)] = some (emptyTree.insert rest) := by
              simp [findSeg]
            simp only [isKeyAt_cons_some, hfind, isKeyAt_cons_none]
            rw [ih emptyTree qs]
            simp [isKeyAt_emptyTree, List.cons_eq_cons]
          · have hfind : findSeg s' [(s, emptyTree.insert rest)] = none := by
              simp [findSeg, hs]
            simp only [isKeyAt_cons_some, hfind, isKeyAt_cons_none]
            simp [List.cons_eq_cons]
            exact fun hh => absurd hh.symm hs
      | some l =>
        cases hf : findSeg s l with
        | some c =>
          have h1 : (PrefixTree.node (some l) k n).insert (s :: rest) =
              .node (some (l.map (fun q => if q.1 = s then (q.1, c.insert rest) else q))) k n := by
            simp [PrefixTree.insert, hf]
          rw [h1]
          cases q with
          | nil => simp [isKeyAt_nil]
          | cons s' qs =>
            have hfind := findSeg_map_update s s' (fun _ => c.insert rest) l
            by_cases hs : s' = s
            · have hfind2 : findSeg s'
                  (l.map (fun p => if p.1 = s then (p.1, c.insert rest) else p)) =
                  some (c.insert rest) := by
                rw [hfind, if_pos hs, hf]
                rfl
              subst hs
              simp only [isKeyAt_cons_some, hfind2, hf]
              rw [ih c qs]
              simp [List.cons_eq_cons]
            · rw [if_neg hs] at hfind
              simp only [isKeyAt_cons_some, hfind, List.cons_eq_cons, hs]
              simp
        | none =>
          have h1 : (PrefixTree.node (some l) k n).insert (s :: rest) =
              .node (some (l ++ [(s, emptyTree.insert rest)])) k n := by
            simp [PrefixTree.insert, hf]
          rw [h1]
          cases q with
          | nil => simp [isKeyAt_nil]
          | cons s' qs =>
            by_cases hs : s' = s
            · subst hs
              have hfind : findSeg s' (l ++ [(s', emptyTree.insert rest)]) =
                  some (emptyTree.insert rest) := findSeg_append_self hf
              simp only [isKeyAt_cons_some, hfind, hf]
              rw [ih emptyTree qs]
              simp [isKeyAt_emptyTree, List.cons_eq_cons]
            · have hfind : findSeg s' (l ++ [(s, emptyTree.insert rest)]) = findSeg s' l :=
                findSeg_append_other hs
              simp only [isKeyAt_cons_some, hfind, List.cons_eq_cons, hs]
              simp

theorem subtreeAt_cons_none (k : Bool) (n : Nat) (s : String) (qs : List String) :
    subtreeAt (.node none k n) (s :: qs) = none := rfl

theorem subtreeAt_cons_some (cs : List (String × PrefixTree)) (k : Bool) (n : Nat)
    (s : String) (qs : List String) :
    subtreeAt (.node (some cs) k n) (s :: qs) =
      match findSeg s cs with
      | some c => subtreeAt c qs
      | none => none := rfl

theorem subtreeAt_append (q r : List String) :
    ∀ t, subtreeAt t (q ++ r) = (subtreeAt t q).bind (fun u => subtreeAt u r) := by
  induction q with
  | nil => intro t; simp [subtreeAt]
  | cons s qs ih =>
    intro t
    cases t with
    | node cso k n =>
      cases cso with
      | none => simp [subtreeAt_cons_none]
      | some cs =>
        rw [List.cons_append, subtreeAt_cons_some, subtreeAt_cons_some]
        cases findSeg s cs with
        | none => simp
        | some c => simp [ih c]

theorem isKeyAt_foldl (keys : List (List String)) :
    ∀ t q, isKeyAt (keys.foldl PrefixTree.insert t) q = true ↔
      (q ∈ keys ∨ isKeyAt t q = true) := by
  induction keys with
  | nil => intro t q; simp
  | cons p rest ih =>
    intro t q
    simp only [List.foldl_cons]
    rw [ih, isKeyAt_insert]
    simp only [List.mem_cons]
    tauto

theorem isKeyAt_buildTrie (keys : List (List String)) (q : List String) :
    isKeyAt (buildTrie keys) q = true ↔ q ∈ keys := by
  rw [buildTrie, isKeyAt_foldl]
  simp [isKeyAt_emptyTree]

theorem isUnder_iff (q : List String) :
    ∀ p, isUnder q p = true ↔ ∃ r, p = q ++ r := by
  induction q with
  | nil => intro p; simp [isUnder]
  | cons a as ih =>
    intro p
    cases p with
    | nil => simp [isUnder]
    | cons b bs =>
      simp only [isUnder, List.cons_append, Bool.and_eq_true, beq_iff_eq, ih bs]
      constructor
      · rintro ⟨hab, r, hr⟩
        exact ⟨r, by rw [hab, hr]⟩
      · rintro ⟨r, hr⟩
        obtain ⟨h1, h2⟩ := List.cons_eq_cons.mp hr
        exact ⟨h1.symm, r, h2⟩

/-! ## `keyPaths` and the key count -/

mutual
theorem keyCount_eq_length : ∀ t, keyCount t = (keyPaths t).length
  | .node none k n => by cases k <;> simp [keyCount, keyPaths]
  | .node (some cs) k n => by
    have h := keyCountList_eq_length cs
    cases k <;> simp [keyCount, keyPaths, h, Nat.add_comm]

theorem keyCountList_eq_length : ∀ cs, keyCountList cs = (keyPathsList cs).length
  | [] => by simp [keyCountList, keyPathsList]
  | (s, c) :: rest => by
    have h1 := keyCount_eq_length c
    have h2 := keyCountList_eq_length rest
    simp [keyCountList, keyPathsList, h1, h2]
end

theorem findSeg_some_mem {s : String} :
    ∀ {cs : List (String × PrefixTree)} {c : PrefixTree},
      findSeg s cs = some c → (s, c) ∈ cs := by
  intro cs
  induction cs with
  | nil => intro c h; cases h
  | cons hd tl ih =>
    intro c h
    simp only [findSeg] at h
    by_cases hcond : hd.1 = s
    · rw [if_pos hcond] at h
      cases h
      rw [show (s, hd.2) = hd from by rw [← hcond]]
      exact List.mem_cons_self _ _
    · rw [if_neg hcond] at h
      exact List.mem_cons_of_mem _ (ih h)

theorem findSeg_some_key_mem {s : String} {cs : List (String × PrefixTree)} {c : PrefixTree}
    (h : findSeg s cs = some c) : s ∈ cs.map (·.1) :=
  List.mem_map.mpr ⟨(s, c), findSeg_some_mem h, rfl⟩

theorem findSeg_none_key_not_mem {s : String} {cs : List (String × PrefixTree)}
    (h : findSeg s cs = none) : s ∉ cs.map (·.1) := by
  intro hmem
  obtain ⟨p, hp, hps⟩ := List.mem_map.mp hmem
  exact findSeg_none_mem h p hp hps

theorem nodupSegs_iff : ∀ cs : List (String × PrefixTree),
    nodupSegs cs = true ↔ (cs.map (·.1)).Nodup
  | [] => by simp [nodupSegs]
  | (s, c) :: rest => by
    simp only [nodupSegs, Bool.and_eq_true, Bool.not_eq_eq_eq_not, Bool.not_true,
      List.map_cons, List.nodup_cons, nodupSegs_iff rest]
    constructor
    · rintro ⟨h1, h2⟩
      refine ⟨fun hmem => ?_, h2⟩
      rw [show ((List.map (fun x => x.1) rest).contains s = false)
            = ¬((List.map (fun x => x.1) rest).contains s = true) from by simp] at h1
      rw [List.elem_iff] at h1
      exact h1 hmem
    · rintro ⟨h1, h2⟩
      refine ⟨?_, h2⟩
      rw [show ((List.map (fun x => x.1) rest).contains s = false)
            = ¬((List.map (fun x => x.1) rest).contains s = true) from by simp]
      rw [List.elem_iff]
      exact h1

/-! ## Well-formedness is preserved by `insert` -/

theorem wfb_node_none (k : Bool) (n : Nat) : wfb (.node none k n) = true := by
  simp [wfb]

theorem wfb_node_some (cs : List (String × PrefixTree)) (k : Bool) (n : Nat) :
    wfb (.node (some cs) k n) = (nodupSegs cs && wfbList cs) := by
  simp [wfb]

theorem wfb_emptyTree : wfb emptyTree = true := by
  simp [emptyTree, wfb]

theorem wfbList_mem : ∀ {cs : List (String × PrefixTree)}, wfbList cs = true →
    ∀ {s : String} {c : PrefixTree}, (s, c) ∈ cs → wfb c = true := by
  intro cs
  induction cs with
  | nil => intro _ s c h; cases h
  | cons hd tl ih =>
    intro hw s c h
    simp only [wfbList, Bool.and_eq_true] at hw
    rcases List.mem_cons.mp h with h | h
    · rw [show c = hd.2 from congrArg Prod.snd h]
      exact hw.1
    · exact ih hw.2 h

theorem wfb_subtreeAt : ∀ (q : List String) (t u : PrefixTree),
    wfb t = true → subtreeAt t q = some u → wfb u = true := by
  intro q
  induction q with
  | nil =>
    intro t u hw h
    simp [subtreeAt] at h
    rw [← h]
    exact hw
  | cons s qs ih =>
    intro t u hw h
    cases t with
    | node cso k n =>
      cases cso with
      | none => rw [subtreeAt_cons_none] at h; cases h
      | some cs =>
        rw [subtreeAt_cons_some] at h
        cases hf : findSeg s cs with
        | none => rw [hf] at h; cases h
        | some c =>
          rw [hf] at h
          rw [wfb_node_some, Bool.and_eq_true] at hw
          exact ih c u (wfbList_mem hw.2 (findSeg_some_mem hf)) h

theorem mapFst_update (s : String) (v : PrefixTree) (cs : List (String × PrefixTree)) :
    (cs.map (fun p => if p.1 = s then (p.1, v) else p)).map (·.1) = cs.map (·.1) := by
  rw [List.map_map]
  apply List.map_congr_left
  intro p _
  by_cases h : p.1 = s <;> simp [Function.comp, h]

theorem wfbList_map_update (s : String) (v : PrefixTree) (hv : wfb v = true) :
    ∀ cs : List (String × PrefixTree), wfbList cs = true →
    wfbList (cs.map (fun p => if p.1 = s then (p.1, v) else p)) = true := by
  intro cs
  induction cs with
  | nil => intro h; exact h
  | cons hd tl ih =>
    intro hw
    simp only [wfbList, Bool.and_eq_true] at hw
    simp only [List.map_cons]
    by_cases h : hd.1 = s
    · rw [if_pos h]
      simp only [wfbList, Bool.and_eq_true]
      exact ⟨hv, ih hw.2⟩
    · rw [if_neg h]
      have : wfbList (hd :: tl.map (fun p => if p.1 = s then (p.1, v) else p)) =
          (wfb hd.2 && wfbList (tl.map (fun p => if p.1 = s then (p.1, v) else p))) := by
        cases hd
        simp [wfbList]
      rw [this, Bool.and_eq_true]
      exact ⟨hw.1, ih hw.2⟩

theorem wfbList_cons_eq (hd : String × PrefixTree) (tl : List (String × PrefixTree)) :
    wfbList (hd :: tl) = (wfb hd.2 && wfbList tl) := by
  cases hd
  simp [wfbList]

theorem wfbList_append : ∀ a b : List (String × PrefixTree),
    wfbList (a ++ b) = (wfbList a && wfbList b) := by
  intro a b
  induction a with
  | nil => simp [wfbList]
  | cons hd tl ih => simp [wfbList_cons_eq, ih, Bool.and_assoc]

theorem wfb_insert (p : List String) : ∀ t, wfb t = true → wfb (t.insert p) = true := by
  induction p with
  | nil =>
    intro t hw
    cases t with
    | node cs k n =>
      cases cs with
      | none => simp [PrefixTree.insert, wfb_node_none]
      | some l =>
        rw [wfb_node_some] at hw
        simp only [PrefixTree.insert]
        rw [wfb_node_some]
        exact hw
  | cons s rest ih =>
    intro t hw
    cases t with
    | node cs k n =>
      cases cs with
      | none =>
        have h1 : (PrefixTree.node none k n).insert (s :: rest) =
            .node (some [(s, emptyTree.insert rest)]) k n := by
          simp [PrefixTree.insert, findSeg]
        rw [h1, wfb_node_some, Bool.and_eq_true]
        constructor
        · simp [nodupSegs]
        · rw [wfbList_cons_eq, Bool.and_eq_true]
          exact ⟨ih emptyTree wfb_emptyTree, rfl⟩
      | some l =>
        rw [wfb_node_some, Bool.and_eq_true] at hw
        cases hf : findSeg s l with
        | some c =>
          have h1 : (PrefixTree.node (some l) k n).insert (s :: rest) =
              .node (some (l.map (fun q => if q.1 = s then (q.1, c.insert rest) else q))) k n := by
            simp [PrefixTree.insert, hf]
          rw [h1, wfb_node_some, Bool.and_eq_true]
          constructor
          · rw [nodupSegs_iff, mapFst_update]
            exact (nodupSegs_iff l).mp hw.1
          · exact wfbList_map_update s _ (ih c (wfbList_mem hw.2 (findSeg_some_mem hf))) l hw.2
        | none =>
          have h1 : (PrefixTree.node (some l) k n).insert (s :: rest) =
              .node (some (l ++ [(s, emptyTree.insert rest)])) k n := by
            simp [PrefixTree.insert, hf]
          rw [h1, wfb_node_some, Bool.and_eq_true]
          constructor
          · rw [nodupSegs_iff, List.map_append]
            simp only [List.map_cons, List.map_nil]
            rw [List.nodup_append]
            refine ⟨(nodupSegs_iff l).mp hw.1, List.nodup_singleton s, ?_⟩
            intro x hx hx'
            simp at hx'
            rw [hx'] at hx
            exact findSeg_none_key_not_mem hf hx
          · rw [wfbList_append, Bool.and_eq_true]
            refine ⟨hw.2, ?_⟩
            rw [wfbList_cons_eq, Bool.and_eq_true]
            exact ⟨ih emptyTree wfb_emptyTree, rfl⟩

theorem wfb_foldl (keys : List (List String)) :
    ∀ t, wfb t = true → wfb (keys.foldl PrefixTree.insert t) = true := by
  induction keys with
  | nil => intro t h; exact h
  | cons p rest ih =>
    intro t h
    exact ih _ (wfb_insert p t h)

theorem wfb_buildTrie (keys : List (List String)) : wfb (buildTrie keys) = true :=
  wfb_foldl keys emptyTree wfb_emptyTree

/-! ## Membership and distinctness of `keyPaths` -/

mutual
theorem mem_keyPaths : ∀ t : PrefixTree, wfb t = true → ∀ q,
    (q ∈ keyPaths t ↔ isKeyAt t q = true)
  | .node none k n => by
    intro _ q
    cases q with
    | nil => cases k <;> simp [keyPaths, isKeyAt_nil]
    | cons s qs => cases k <;> simp [keyPaths, isKeyAt_cons_none]
  | .node (some cs) k n => by
    intro hw q
    rw [wfb_node_some, Bool.and_eq_true] at hw
    have hl := mem_keyPathsList cs hw.1 hw.2
    cases q with
    | nil =>
      rw [isKeyAt_nil]
      simp only [keyPaths, List.mem_append, hl]
      cases k <;> simp
    | cons s' qs =>
      rw [isKeyAt_cons_some]
      simp only [keyPaths, List.mem_append, hl]
      have hite : (s' :: qs) ∈ (if k then [([] : List String)] else []) ↔ False := by
        cases k <;> simp
      rw [hite]
      simp only [false_or]
      constructor
      · rintro ⟨s'', qs', c, heq, hfind, hkey⟩
        obtain ⟨h1, h2⟩ := List.cons_eq_cons.mp heq
        subst h1
        subst h2
        rw [hfind]
        exact hkey
      · intro h
        cases hf : findSeg s' cs with
        | none => rw [hf] at h; cases h
        | some c =>
          rw [hf] at h
          exact ⟨s', qs, c, rfl, hf, h⟩

theorem mem_keyPathsList : ∀ cs : List (String × PrefixTree),
    nodupSegs cs = true → wfbList cs = true → ∀ q,
    (q ∈ keyPathsList cs ↔
      ∃ s qs c, q = s :: qs ∧ findSeg s cs = some c ∧ isKeyAt c qs = true)
  | [] => by
    intro _ _ q
    simp [keyPathsList, findSeg]
  | (s, c) :: rest => by
    intro hnd hwl q
    simp only [nodupSegs, Bool.and_eq_true, Bool.not_eq_eq_eq_not, Bool.not_true] at hnd
    rw [wfbList_cons_eq, Bool.and_eq_true] at hwl
    have hsmem : s ∉ rest.map (·.1) := by
      intro hmem
      rw [show ((rest.map (·.1)).contains s = false)
            = ¬((rest.map (·.1)).contains s = true) from by simp] at hnd
      exact hnd.1 (List.elem_iff.mpr hmem)
    have ihc := mem_keyPaths c hwl.1
    have ihl := mem_keyPathsList rest hnd.2 hwl.2
    simp only [keyPathsList, List.mem_append, List.mem_map, ihl]
    constructor
    · rintro (⟨q', hq', rfl⟩ | ⟨s', qs, c', heq, hfind, hkey⟩)
      · exact ⟨s, q', c, rfl, by simp [findSeg], (ihc q').mp hq'⟩
      · have hne : ¬s = s' := by
          intro hh
          rw [← hh] at hfind
          exact hsmem (findSeg_some_key_mem hfind)
        refine ⟨s', qs, c', heq, ?_, hkey⟩
        simp [findSeg, hne, hfind]
    · rintro ⟨s', qs, c', rfl, hfind, hkey⟩
      by_cases hss : s = s'
      · subst hss
        have hfind2 : findSeg s ((s, c) :: rest) = some c := by simp [findSeg]
        rw [hfind2, Option.some.injEq] at hfind
        subst hfind
        exact Or.inl ⟨qs, (ihc qs).mpr hkey, rfl⟩
      · simp only [findSeg, if_neg hss] at hfind
        exact Or.inr ⟨s', qs, c', rfl, hfind, hkey⟩
end

mutual
theorem keyPaths_nodup : ∀ t : PrefixTree, wfb t = true → (keyPaths t).Nodup
  | .node none k n => by
    intro _
    cases k <;> simp [keyPaths]
  | .node (some cs) k n => by
    intro hw
    rw [wfb_node_some, Bool.and_eq_true] at hw
    have h := keyPathsList_nodup cs hw.1 hw.2
    simp only [keyPaths]
    rw [List.nodup_append]
    refine ⟨by cases k <;> simp, h.1, ?_⟩
    intro x hx hx'
    obtain ⟨s, qs, rfl, _⟩ := h.2 x hx'
    cases k with
    | false => cases hx
    | true => simp at hx

theorem keyPathsList_nodup : ∀ cs : List (String × PrefixTree),
    nodupSegs cs = true → wfbList cs = true →
    (keyPathsList cs).Nodup ∧
      (∀ q ∈ keyPathsList cs, ∃ s qs, q = s :: qs ∧ s ∈ cs.map (·.1))
  | [] => by
    intro _ _
    simp [keyPathsList]
  | (s, c) :: rest => by
    intro hnd hwl
    simp only [nodupSegs, Bool.and_eq_true, Bool.not_eq_eq_eq_not, Bool.not_true] at hnd
    rw [wfbList_cons_eq, Bool.and_eq_true] at hwl
    have hsmem : s ∉ rest.map (·.1) := by
      intro hmem
      rw [show ((rest.map (·.1)).contains s = false)
            = ¬((rest.map (·.1)).contains s = true) from by simp] at hnd
      exact hnd.1 (List.elem_iff.mpr hmem)
    have ihc := keyPaths_nodup c hwl.1
    have ihl := keyPathsList_nodup rest hnd.2 hwl.2
    constructor
    · simp only [keyPathsList]
      rw [List.nodup_append]
      refine ⟨ihc.map (fun a b hab => (List.cons_eq_cons.mp hab).2), ihl.1, ?_⟩
      intro x hx hx'
      obtain ⟨q', _, rfl⟩ := List.mem_map.mp hx
      obtain ⟨s'', qs, heq, hmem⟩ := ihl.2 _ hx'
      obtain ⟨h1, _⟩ := List.cons_eq_cons.mp heq
      rw [h1] at hsmem
      exact hsmem hmem
    · intro q hq
      simp only [keyPathsList, List.mem_append, List.mem_map] at hq
      rcases hq with ⟨q', _, rfl⟩ | hq
      · exact ⟨s, q', rfl, by simp⟩
      · obtain ⟨s'', qs, rfl, hmem⟩ := ihl.2 _ hq
        exact ⟨s'', qs, rfl, by simp [hmem]⟩
end

/-! ## Joining components back with `:` -/

/-- Inverse of `splitChars`: join character chunks with `:`. -/
def joinChars : List (List Char) → List Char
  | [] => []
  | [p] => p
  | p :: ps => p ++ ':' :: joinChars ps

theorem joinChars_cons_cons (c : Char) (p : List Char) (ps : List (List Char)) :
    joinChars ((c :: p) :: ps) = c :: joinChars (p :: ps) := by
  cases ps with
  | nil => rfl
  | cons q qs => rfl

theorem splitChars_ne_nil : ∀ l : List Char, splitChars l ≠ [] := by
  intro l
  cases l with
  | nil => simp [splitChars]
  | cons c rest =>
    simp only [splitChars]
    cases splitChars rest with
    | nil => simp
    | cons p ps =>
      by_cases hc : c = ':' <;> simp [hc]

theorem joinChars_splitChars : ∀ l : List Char, joinChars (splitChars l) = l
  | [] => rfl
  | c :: rest => by
    have ih := joinChars_splitChars rest
    cases hs : splitChars rest with
    | nil => exact absurd hs (splitChars_ne_nil rest)
    | cons p ps =>
      rw [hs] at ih
      by_cases hc : c = ':'
      · subst hc
        simp only [splitChars, hs, if_pos rfl]
        show ':' :: joinChars (p :: ps) = ':' :: rest
        rw [ih]
      · simp only [splitChars, hs, if_neg hc]
        rw [joinChars_cons_cons, ih]

theorem splitKey_data (a : String) : (splitKey a).map String.data = splitChars a.data := by
  rw [splitKey, List.map_map]
  have : (String.data ∘ fun l : List Char => (⟨l⟩ : String)) = id := by
    funext l
    rfl
  rw [this, List.map_id]

theorem splitKey_injective : Function.Injective splitKey := by
  intro a b h
  have ha := splitKey_data a
  have hb := splitKey_data b
  rw [h] at ha
  have : a.data = b.data := by
    rw [← joinChars_splitChars a.data, ← joinChars_splitChars b.data, ← ha, ← hb]
  cases a
  cases b
  simp only [] at this
  rw [this]

/-! ## C1: count correctness after `recount` -/

theorem subtreeAt_nil (t : PrefixTree) : subtreeAt t [] = some t := by
  simp [subtreeAt]

theorem isKeyAt_of_subtree {t u : PrefixTree} {q : List String}
    (h : subtreeAt t q = some u) (r : List String) :
    isKeyAt t (q ++ r) = isKeyAt u r := by
  simp [isKeyAt, subtreeAt_append, h]

theorem count_correct_paths (paths : List (List String)) (q : List String)
    (sub : PrefixTree) (h : subtreeAt ((buildTrie paths).recount true).1 q = some sub) :
    sub.countField = (paths.dedup.filter (fun p => isUnder q p)).length := by
  rw [subtreeAt_recount] at h
  cases h0 : subtreeAt (buildTrie paths) q with
  | none => rw [h0] at h; cases h
  | some sub0 =>
    rw [h0] at h
    have hsub : sub = (sub0.recount true).1 := (Option.some.inj h).symm
    subst hsub
    rw [recount_countField, keyCount_eq_length]
    have hwf : wfb sub0 = true := wfb_subtreeAt q _ sub0 (wfb_buildTrie paths) h0
    have hnodupL : ((keyPaths sub0).map (q ++ ·)).Nodup :=
      (keyPaths_nodup sub0 hwf).map (List.append_right_injective q)
    have hnodupR : (paths.dedup.filter (fun p => isUnder q p)).Nodup :=
      (List.nodup_dedup paths).filter _
    have hmem : ∀ x, x ∈ (keyPaths sub0).map (q ++ ·) ↔
        x ∈ paths.dedup.filter (fun p => isUnder q p) := by
      intro x
      rw [List.mem_map, List.mem_filter, List.mem_dedup]
      constructor
      · rintro ⟨r, hr, rfl⟩
        have hk : isKeyAt sub0 r = true := (mem_keyPaths sub0 hwf r).mp hr
        rw [← isKeyAt_of_subtree h0 r, isKeyAt_buildTrie] at hk
        exact ⟨hk, (isUnder_iff q (q ++ r)).mpr ⟨r, rfl⟩⟩
      · rintro ⟨hmem, hund⟩
        obtain ⟨r, rfl⟩ := (isUnder_iff q x).mp hund
        refine ⟨r, ?_, rfl⟩
        rw [mem_keyPaths sub0 hwf, ← isKeyAt_of_subtree h0 r, isKeyAt_buildTrie]
        exact hmem
    have hperm := (List.perm_ext_iff_of_nodup hnodupL hnodupR).mpr hmem
    have := hperm.length_eq
    rw [List.length_map] at this
    exact this

theorem buildTrieKeys_eq (ks : List String) :
    buildTrieKeys ks = buildTrie (ks.map splitKey) := by
  rw [buildTrieKeys, buildTrie, List.foldl_map]

/-- C1: for a trie built by inserting a finite list of key strings (each split on the
delimiter `:`), after `recount` the root count equals the number of distinct keys,
every node's count equals the number of distinct keys whose component path extends the
node's path (the node itself included when it is a key), and recounting a childless
leaf yields 1 if `is_key` else 0. -/
theorem C1_count_correctness (ks : List String) :
    (((buildTrieKeys ks).recount true).1).countField = ks.dedup.length
    ∧ (∀ q sub, subtreeAt ((buildTrieKeys ks).recount true).1 q = some sub →
        sub.countField = (ks.dedup.filter (fun k => isUnder q (splitKey k))).length)
    ∧ (∀ (k : Bool) (c : Nat) (b : Bool), PrefixTree.recount (.node none k c) b
        = (.node none k (if k then 1 else 0), if k then 1 else 0)) := by
  have hmain : ∀ q sub, subtreeAt ((buildTrieKeys ks).recount true).1 q = some sub →
      sub.countField = (ks.dedup.filter (fun k => isUnder q (splitKey k))).length := by
    intro q sub h
    rw [buildTrieKeys_eq] at h
    rw [count_correct_paths (ks.map splitKey) q sub h]
    rw [List.dedup_map_of_injective splitKey_injective ks, List.filter_map, List.length_map]
    rfl
  refine ⟨?_, hmain, ?_⟩
  · have h := hmain [] (((buildTrieKeys ks).recount true).1) (subtreeAt_nil _)
    rw [h]
    congr 1
    apply List.filter_eq_self.mpr
    intro k _
    rfl
  · intro k c b
    cases b <;> simp [PrefixTree.recount]

/-- C1 witness: for keys user:1, user:2, order:5 the recounted root reports
3 distinct keys, matching the filter over all keys at the root path. -/
theorem C1_count_correctness_witness :
    subtreeAt (((buildTrieKeys ["user:1", "user:2", "order:5"]).recount true).1) []
        = some (((buildTrieKeys ["user:1", "user:2", "order:5"]).recount true).1)
    ∧ (((buildTrieKeys ["user:1", "user:2", "order:5"]).recount true).1).countField
        = ((["user:1", "user:2", "order:5"].dedup.filter
            (fun k => isUnder [] (splitKey k))).length) :=
  ⟨subtreeAt_nil _, (C1_count_correctness ["user:1", "user:2", "order:5"]).2.1 []
    (((buildTrieKeys ["user:1", "user:2", "order:5"]).recount true).1) (subtreeAt_nil _)⟩

/-! ## Materialization (`_PrefixTree.to_nodes`) -/

/-- The node dictionaries produced by `to_nodes`: id, label, icon, and the child list
(empty for leaf entries, which carry no `children` entry in the source). -/
structure DisplayNode where
  id : String
  label : String
  icon : String
  children : List DisplayNode

/-- Runs (lo, hi, stride, delta) of the Unicode simple lowercase mapping applied by
Python str.lower: the code points lo, lo+stride, ..., hi map to themselves plus
delta.  Generated from the CPython Unicode database.  U+0130 (the only multi-char
lowercase) and U+03A3 (the context-sensitive capital sigma) are handled separately. -/
def lowerRuns : List (Nat × Nat × Nat × Int) := [
  (65, 90, 1, 32), (192, 214, 1, 32), (216, 222, 1, 32), (256, 302, 2, 1), (306, 310, 2, 1),
  (313, 327, 2, 1), (330, 374, 2, 1), (376, 376, 1, -121), (377, 381, 2, 1), (385, 385, 1, 210),
  (386, 388, 2, 1), (390, 390, 1, 206), (391, 391, 1, 1), (393, 394, 1, 205), (395, 395, 1, 1),
  (398, 398, 1, 79), (399, 399, 1, 202), (400, 400, 1, 203), (401, 401, 1, 1), (403, 403, 1, 205),
  (404, 404, 1, 207), (406, 406, 1, 211), (407, 407, 1, 209), (408, 408, 1, 1), (412, 412, 1, 211),
  (413, 413, 1, 213), (415, 415, 1, 214), (416, 420, 2, 1), (422, 422, 1, 218), (423, 423, 1, 1),
  (425, 425, 1, 218), (428, 428, 1, 1), (430, 430, 1, 218), (431, 431, 1, 1), (433, 434, 1, 217),
  (435, 437, 2, 1), (439, 439, 1, 219), (440, 444, 4, 1), (452, 452, 1, 2), (453, 453, 1, 1),
  (455, 455, 1, 2), (456, 456, 1, 1), (458, 458, 1, 2), (459, 475, 2, 1), (478, 494, 2, 1),
  (497, 497, 1, 2), (498, 500, 2, 1), (502, 502, 1, -97), (503, 503, 1, -56), (504, 542, 2, 1),
  (544, 544, 1, -130), (546, 562, 2, 1), (570, 570, 1, 10795), (571, 571, 1, 1), (573, 573, 1, -163),
  (574, 574, 1, 10792), (577, 577, 1, 1), (579, 579, 1, -195), (580, 580, 1, 69), (581, 581, 1, 71),
  (582, 590, 2, 1), (880, 882, 2, 1), (886, 886, 1, 1), (895, 895, 1, 116), (902, 902, 1, 38),
  (904, 906, 1, 37), (908, 908, 1, 64), (910, 911, 1, 63), (913, 929, 1, 32), (932, 939, 1, 32),
  (975, 975, 1, 8), (984, 1006, 2, 1), (1012, 1012, 1, -60), (1015, 1015, 1, 1), (1017, 1017, 1, -7),
  (1018, 1018, 1, 1), (1021, 1023, 1, -130), (1024, 1039, 1, 80), (1040, 1071, 1, 32), (1120, 1152, 2, 1),
  (1162, 1214, 2, 1), (1216, 1216, 1, 15), (1217, 1229, 2, 1), (1232, 1326, 2, 1), (1329, 1366, 1, 48),
  (4256, 4293, 1, 7264), (4295, 4301, 6, 7264), (5024, 5103, 1, 38864), (5104, 5109, 1, 8), (7312, 7354, 1, -3008),
  (7357, 7359, 1, -3008), (7680, 7828, 2, 1), (7838, 7838, 1, -7615), (7840, 7934, 2, 1), (7944, 7951, 1, -8),
  (7960, 7965, 1, -8), (7976, 7983, 1, -8), (7992, 7999, 1, -8), (8008, 8013, 1, -8), (8025, 8031, 2, -8),
  (8040, 8047, 1, -8), (8072, 8079, 1, -8), (8088, 8095, 1, -8), (8104, 8111, 1, -8), (8120, 8121, 1, -8),
  (8122, 8123, 1, -74), (8124, 8124, 1, -9), (8136, 8139, 1, -86), (8140, 8140, 1, -9), (8152, 8153, 1, -8),
  (8154, 8155, 1, -100), (8168, 8169, 1, -8), (8170, 8171, 1, -112), (8172, 8172, 1, -7), (8184, 8185, 1, -128),
  (8186, 8187, 1, -126), (8188, 8188, 1, -9), (8486, 8486, 1, -7517), (8490, 8490, 1, -8383), (8491, 8491, 1, -8262),
  (8498, 8498, 1, 28), (8544, 8559, 1, 16), (8579, 8579, 1, 1), (9398, 9423, 1, 26), (11264, 11311, 1, 48),
  (11360, 11360, 1, 1), (11362, 11362, 1, -10743), (11363, 11363, 1, -3814), (11364, 11364, 1, -10727), (11367, 11371, 2, 1),
  (11373, 11373, 1, -10780), (11374, 11374, 1, -10749), (11375, 11375, 1, -10783), (11376, 11376, 1, -10782), (11378, 11381, 3, 1),
  (11390, 11391, 1, -10815), (11392, 11490, 2, 1), (11499, 11501, 2, 1), (11506, 42560, 31054, 1), (42562, 42604, 2, 1),
  (42624, 42650, 2, 1), (42786, 42798, 2, 1), (42802, 42862, 2, 1), (42873, 42875, 2, 1), (42877, 42877, 1, -35332),
  (42878, 42886, 2, 1), (42891, 42891, 1, 1), (42893, 42893, 1, -42280), (42896, 42898, 2, 1), (42902, 42920, 2, 1),
  (42922, 42922, 1, -42308), (42923, 42923, 1, -42319), (42924, 42924, 1, -42315), (42925, 42925, 1, -42305), (42926, 42926, 1, -42308),
  (42928, 42928, 1, -42258), (42929, 42929, 1, -42282), (42930, 42930, 1, -42261), (42931, 42931, 1, 928), (42932, 42946, 2, 1),
  (42948, 42948, 1, -48), (42949, 42949, 1, -42307), (42950, 42950, 1, -35384), (42951, 42953, 2, 1), (42960, 42966, 6, 1),
  (42968, 42997, 29, 1), (65313, 65338, 1, 32), (66560, 66599, 1, 40), (66736, 66771, 1, 40), (66928, 66938, 1, 39),
  (66940, 66954, 1, 39), (66956, 66962, 1, 39), (66964, 66965, 1, 39), (68736, 68786, 1, 64), (71840, 71871, 1, 32),
  (93760, 93791, 1, 32), (125184, 125217, 1, 34)]

/-- The code points with the Unicode property Cased, as consulted by Python
str.lower for the final-sigma context rule (inclusive ranges). -/
def casedRanges : List (Nat × Nat) := [
  (65, 90), (97, 122), (170, 170), (181, 181), (186, 186), (192, 214),
  (216, 246), (248, 442), (444, 447), (452, 659), (661, 687), (880, 883),
  (886, 887), (891, 893), (895, 895), (902, 902), (904, 906), (908, 908),
  (910, 929), (931, 1013), (1015, 1153), (1162, 1327), (1329, 1366), (1376, 1416),
  (4256, 4293), (4295, 4295), (4301, 4301), (4304, 4346), (4349, 4351), (5024, 5109),
  (5112, 5117), (7296, 7304), (7312, 7354), (7357, 7359), (7424, 7467), (7531, 7543),
  (7545, 7578), (7680, 7957), (7960, 7965), (7968, 8005), (8008, 8013), (8016, 8023),
  (8025, 8025), (8027, 8027), (8029, 8029), (8031, 8061), (8064, 8116), (8118, 8124),
  (8126, 8126), (8130, 8132), (8134, 8140), (8144, 8147), (8150, 8155), (8160, 8172),
  (8178, 8180), (8182, 8188), (8450, 8450), (8455, 8455), (8458, 8467), (8469, 8469),
  (8473, 8477), (8484, 8484), (8486, 8486), (8488, 8488), (8490, 8493), (8495, 8500),
  (8505, 8505), (8508, 8511), (8517, 8521), (8526, 8526), (8544, 8575), (8579, 8580),
  (9398, 9449), (11264, 11387), (11390, 11492), (11499, 11502), (11506, 11507), (11520, 11557),
  (11559, 11559), (11565, 11565), (42560, 42605), (42624, 42651), (42786, 42863), (42865, 42887),
  (42891, 42894), (42896, 42954), (42960, 42961), (42963, 42963), (42965, 42969), (42997, 42998),
  (43002, 43002), (43824, 43866), (43872, 43880), (43888, 43967), (64256, 64262), (64275, 64279),
  (65313, 65338), (65345, 65370), (66560, 66639), (66736, 66771), (66776, 66811), (66928, 66938),
  (66940, 66954), (66956, 66962), (66964, 66965), (66967, 66977), (66979, 66993), (66995, 67001),
  (67003, 67004), (68736, 68786), (68800, 68850), (71840, 71903), (93760, 93823), (119808, 119892),
  (119894, 119964), (119966, 119967), (119970, 119970), (119973, 119974), (119977, 119980), (119982, 119993),
  (119995, 119995), (119997, 120003), (120005, 120069), (120071, 120074), (120077, 120084), (120086, 120092),
  (120094, 120121), (120123, 120126), (120128, 120132), (120134, 120134), (120138, 120144), (120146, 120485),
  (120488, 120512), (120514, 120538), (120540, 120570), (120572, 120596), (120598, 120628), (120630, 120654),
  (120656, 120686), (120688, 120712), (120714, 120744), (120746, 120770), (120772, 120779), (122624, 122633),
  (122635, 122654), (125184, 125251), (127280, 127305), (127312, 127337), (127344, 127369)]

/-- The code points with the Unicode property Case_Ignorable, as consulted by
Python str.lower for the final-sigma context rule (inclusive ranges). -/
def caseIgnorableRanges : List (Nat × Nat) := [
  (39, 39), (46, 46), (58, 58), (94, 94), (96, 96), (168, 168),
  (173, 173), (175, 175), (180, 180), (183, 184), (688, 879), (884, 885),
  (890, 890), (900, 901), (903, 903), (1155, 1161), (1369, 1369), (1375, 1375),
  (1425, 1469), (1471, 1471), (1473, 1474), (1476, 1477), (1479, 1479), (1524, 1524),
  (1536, 1541), (1552, 1562), (1564, 1564), (1600, 1600), (1611, 1631), (1648, 1648),
  (1750, 1757), (1759, 1768), (1770, 1773), (1807, 1807), (1809, 1809), (1840, 1866),
  (1958, 1968), (2027, 2037), (2042, 2042), (2045, 2045), (2070, 2093), (2137, 2139),
  (2184, 2184), (2192, 2193), (2200, 2207), (2249, 2306), (2362, 2362), (2364, 2364),
  (2369, 2376), (2381, 2381), (2385, 2391), (2402, 2403), (2417, 2417), (2433, 2433),
  (2492, 2492), (2497, 2500), (2509, 2509), (2530, 2531), (2558, 2558), (2561, 2562),
  (2620, 2620), (2625, 2626), (2631, 2632), (2635, 2637), (2641, 2641), (2672, 2673),
  (2677, 2677), (2689, 2690), (2748, 2748), (2753, 2757), (2759, 2760), (2765, 2765),
  (2786, 2787), (2810, 2815), (2817, 2817), (2876, 2876), (2879, 2879), (2881, 2884),
  (2893, 2893), (2901, 2902), (2914, 2915), (2946, 2946), (3008, 3008), (3021, 3021),
  (3072, 3072), (3076, 3076), (3132, 3132), (3134, 3136), (3142, 3144), (3146, 3149),
  (3157, 3158), (3170, 3171), (3201, 3201), (3260, 3260), (3263, 3263), (3270, 3270),
  (3276, 3277), (3298, 3299), (3328, 3329), (3387, 3388), (3393, 3396), (3405, 3405),
  (3426, 3427), (3457, 3457), (3530, 3530), (3538, 3540), (3542, 3542), (3633, 3633),
  (3636, 3642), (3654, 3662), (3761, 3761), (3764, 3772), (3782, 3782), (3784, 3789),
  (3864, 3865), (3893, 3893), (3895, 3895), (3897, 3897), (3953, 3966), (3968, 3972),
  (3974, 3975), (3981, 3991), (3993, 4028), (4038, 4038), (4141, 4144), (4146, 4151),
  (4153, 4154), (4157, 4158), (4184, 4185), (4190, 4192), (4209, 4212), (4226, 4226),
  (4229, 4230), (4237, 4237), (4253, 4253), (4348, 4348), (4957, 4959), (5906, 5908),
  (5938, 5939), (5970, 5971), (6002, 6003), (6068, 6069), (6071, 6077), (6086, 6086),
  (6089, 6099), (6103, 6103), (6109, 6109), (6155, 6159), (6211, 6211), (6277, 6278),
  (6313, 6313), (6432, 6434), (6439, 6440), (6450, 6450), (6457, 6459), (6679, 6680),
  (6683, 6683), (6742, 6742), (6744, 6750), (6752, 6752), (6754, 6754), (6757, 6764),
  (6771, 6780), (6783, 6783), (6823, 6823), (6832, 6862), (6912, 6915), (6964, 6964),
  (6966, 6970), (6972, 6972), (6978, 6978), (7019, 7027), (7040, 7041), (7074, 7077),
  (7080, 7081), (7083, 7085), (7142, 7142), (7144, 7145), (7149, 7149), (7151, 7153),
  (7212, 7219), (7222, 7223), (7288, 7293), (7376, 7378), (7380, 7392), (7394, 7400),
  (7405, 7405), (7412, 7412), (7416, 7417), (7468, 7530), (7544, 7544), (7579, 7679),
  (8125, 8125), (8127, 8129), (8141, 8143), (8157, 8159), (8173, 8175), (8189, 8190),
  (8203, 8207), (8216, 8217), (8228, 8228), (8231, 8231), (8234, 8238), (8288, 8292),
  (8294, 8303), (8305, 8305), (8319, 8319), (8336, 8348), (8400, 8432), (11388, 11389),
  (11503, 11505), (11631, 11631), (11647, 11647), (11744, 11775), (11823, 11823), (12293, 12293),
  (12330, 12333), (12337, 12341), (12347, 12347), (12441, 12446), (12540, 12542), (40981, 40981),
  (42232, 42237), (42508, 42508), (42607, 42610), (42612, 42621), (42623, 42623), (42652, 42655),
  (42736, 42737), (42752, 42785), (42864, 42864), (42888, 42890), (42994, 42996), (43000, 43001),
  (43010, 43010), (43014, 43014), (43019, 43019), (43045, 43046), (43052, 43052), (43204, 43205),
  (43232, 43249), (43263, 43263), (43302, 43309), (43335, 43345), (43392, 43394), (43443, 43443),
  (43446, 43449), (43452, 43453), (43471, 43471), (43493, 43494), (43561, 43566), (43569, 43570),
  (43573, 43574), (43587, 43587), (43596, 43596), (43632, 43632), (43644, 43644), (43696, 43696),
  (43698, 43700), (43703, 43704), (43710, 43711), (43713, 43713), (43741, 43741), (43756, 43757),
  (43763, 43764), (43766, 43766), (43867, 43871), (43881, 43883), (44005, 44005), (44008, 44008),
  (44013, 44013), (64286, 64286), (64434, 64450), (65024, 65039), (65043, 65043), (65056, 65071),
  (65106, 65106), (65109, 65109), (65279, 65279), (65287, 65287), (65294, 65294), (65306, 65306),
  (65342, 65342), (65344, 65344), (65392, 65392), (65438, 65439), (65507, 65507), (65529, 65531),
  (66045, 66045), (66272, 66272), (66422, 66426), (67456, 67461), (67463, 67504), (67506, 67514),
  (68097, 68099), (68101, 68102), (68108, 68111), (68152, 68154), (68159, 68159), (68325, 68326),
  (68900, 68903), (69291, 69292), (69446, 69456), (69506, 69509), (69633, 69633), (69688, 69702),
  (69744, 69744), (69747, 69748), (69759, 69761), (69811, 69814), (69817, 69818), (69821, 69821),
  (69826, 69826), (69837, 69837), (69888, 69890), (69927, 69931), (69933, 69940), (70003, 70003),
  (70016, 70017), (70070, 70078), (70089, 70092), (70095, 70095), (70191, 70193), (70196, 70196),
  (70198, 70199), (70206, 70206), (70367, 70367), (70371, 70378), (70400, 70401), (70459, 70460),
  (70464, 70464), (70502, 70508), (70512, 70516), (70712, 70719), (70722, 70724), (70726, 70726),
  (70750, 70750), (70835, 70840), (70842, 70842), (70847, 70848), (70850, 70851), (71090, 71093),
  (71100, 71101), (71103, 71104), (71132, 71133), (71219, 71226), (71229, 71229), (71231, 71232),
  (71339, 71339), (71341, 71341), (71344, 71349), (71351, 71351), (71453, 71455), (71458, 71461),
  (71463, 71467), (71727, 71735), (71737, 71738), (71995, 71996), (71998, 71998), (72003, 72003),
  (72148, 72151), (72154, 72155), (72160, 72160), (72193, 72202), (72243, 72248), (72251, 72254),
  (72263, 72263), (72273, 72278), (72281, 72283), (72330, 72342), (72344, 72345), (72752, 72758),
  (72760, 72765), (72767, 72767), (72850, 72871), (72874, 72880), (72882, 72883), (72885, 72886),
  (73009, 73014), (73018, 73018), (73020, 73021), (73023, 73029), (73031, 73031), (73104, 73105),
  (73109, 73109), (73111, 73111), (73459, 73460), (78896, 78904), (92912, 92916), (92976, 92982),
  (92992, 92995), (94031, 94031), (94095, 94111), (94176, 94177), (94179, 94180), (110576, 110579),
  (110581, 110587), (110589, 110590), (113821, 113822), (113824, 113827), (118528, 118573), (118576, 118598),
  (119143, 119145), (119155, 119170), (119173, 119179), (119210, 119213), (119362, 119364), (121344, 121398),
  (121403, 121452), (121461, 121461), (121476, 121476), (121499, 121503), (121505, 121519), (122880, 122886),
  (122888, 122904), (122907, 122913), (122915, 122916), (122918, 122922), (123184, 123197), (123566, 123566),
  (123628, 123631), (125136, 125142), (125252, 125259), (127995, 127999), (917505, 917505), (917536, 917631),
  (917760, 917999)]

/-- The simple lowercase mapping of one code point. -/
def simpleLower (n : Nat) : Nat :=
  match lowerRuns.find? (fun r =>
      decide (r.1 ≤ n) && decide (n ≤ r.2.1) && decide ((n - r.1) % r.2.2.1 = 0)) with
  | some r => ((n : Int) + r.2.2.2).toNat
  | none => n

def inRanges (rs : List (Nat × Nat)) (n : Nat) : Bool :=
  rs.any (fun r => decide (r.1 ≤ n) && decide (n ≤ r.2))

def isCasedCp (n : Nat) : Bool := inRanges casedRanges n

def isCaseIgnorableCp (n : Nat) : Bool := inRanges caseIgnorableRanges n

/-- Whether, scanning outwards over case-ignorable code points, the next code point
is cased (the two halves of the Unicode Final_Sigma condition). -/
def nextCased : List Nat → Bool
  | [] => false
  | c :: rest => if isCaseIgnorableCp c then nextCased rest else isCasedCp c

/-- Python str.lower on a code-point sequence: a capital sigma takes its final form
exactly when it is preceded (over ignorables) by a cased code point and not followed
(over ignorables) by one; U+0130 expands to two code points; every other code point
takes its simple lowercase mapping.  prev holds the code points already passed, in
reverse. -/
def pyLowerAux (prev : List Nat) : List Nat → List Nat
  | [] => []
  | c :: rest =>
    let mapped :=
      if c = 931 then
        if nextCased prev && !(nextCased rest) then [962] else [963]
      else if c = 304 then [105, 775]
      else [simpleLower c]
    mapped ++ pyLowerAux (c :: prev) rest

/-- The sort key of `sorted(self.children, key=lambda x: str(x).lower())`: the
code-point sequence of the Python-lowercased string. -/
def lowerChars (s : String) : List Nat := pyLowerAux [] (s.data.map Char.toNat)

/-- Lexicographic comparison of code-point sequences (Python string order), at most. -/
def charsLe : List Nat → List Nat → Bool
  | [], _ => true
  | _ :: _, [] => false
  | a :: as, b :: bs => if a < b then true else if b < a then false else charsLe as bs

/-- Lexicographic comparison of code-point sequences (Python string order), strict. -/
def charsLt : List Nat → List Nat → Bool
  | [], [] => false
  | [], _ :: _ => true
  | _ :: _, [] => false
  | a :: as, b :: bs => if a < b then true else if b < a then false else charsLt as bs

/-- The sort ordering used on sibling segments: case-insensitive at-most. -/
def lowerLe (a b : String) : Prop := charsLe (lowerChars a) (lowerChars b) = true

/-- Case-insensitive strict lexicographic comparison of sibling segments. -/
def lowerLt (a b : String) : Prop := charsLt (lowerChars a) (lowerChars b) = true

instance : DecidableRel lowerLe := fun a b =>
  inferInstanceAs (Decidable (charsLe (lowerChars a) (lowerChars b) = true))

instance : Decidable (lowerLt a b) :=
  inferInstanceAs (Decidable (charsLt (lowerChars a) (lowerChars b) = true))

theorem charsLe_total : ∀ a b : List Nat, charsLe a b = true ∨ charsLe b a = true := by
  intro a
  induction a with
  | nil => intro b; left; simp [charsLe]
  | cons x xs ih =>
    intro b
    cases b with
    | nil => right; simp [charsLe]
    | cons y ys =>
      rcases lt_trichotomy x y with h | h | h
      · left
        simp [charsLe, h]
      · subst h
        rcases ih ys with h2 | h2
        · left
          simp [charsLe, lt_irrefl, h2]
        · right
          simp [charsLe, lt_irrefl, h2]
      · right
        simp [charsLe, h]

theorem charsLe_trans : ∀ a b c : List Nat,
    charsLe a b = true → charsLe b c = true → charsLe a c = true := by
  intro a
  induction a with
  | nil => intro b c _ _; simp [charsLe]
  | cons x xs ih =>
    intro b c hab hbc
    cases b with
    | nil => simp [charsLe] at hab
    | cons y ys =>
      cases c with
      | nil => simp [charsLe] at hbc
      | cons z zs =>
        simp only [charsLe] at hab hbc ⊢
        rcases lt_trichotomy x y with h1 | h1 | h1
        · rcases lt_trichotomy y z with h2 | h2 | h2
          · simp [lt_trans h1 h2]
          · subst h2
            simp [h1]
          · rw [if_neg (fun hh => absurd (lt_trans hh h2) (lt_irrefl y)), if_pos h2] at hbc
            cases hbc
        · subst h1
          rcases lt_trichotomy x z with h2 | h2 | h2
          · simp [h2]
          · subst h2
            rw [if_neg (lt_irrefl x), if_neg (lt_irrefl x)] at hab ⊢
            rw [if_neg (lt_irrefl x), if_neg (lt_irrefl x)] at hbc
            exact ih ys zs hab hbc
          · rw [if_neg (by exact fun hh => absurd (lt_trans hh h2) (lt_irrefl x)),
              if_pos h2] at hbc
            cases hbc
        · rw [if_neg (fun hh => absurd (lt_trans hh h1) (lt_irrefl x)),
            if_pos h1] at hab
          cases hab

theorem charsLt_of_le_of_ne : ∀ a b : List Nat,
    charsLe a b = true → a ≠ b → charsLt a b = true := by
  intro a
  induction a with
  | nil =>
    intro b _ hne
    cases b with
    | nil => exact absurd rfl hne
    | cons y ys => simp [charsLt]
  | cons x xs ih =>
    intro b hle hne
    cases b with
    | nil => simp [charsLe] at hle
    | cons y ys =>
      simp only [charsLe] at hle
      simp only [charsLt]
      rcases lt_trichotomy x y with h | h | h
      · simp [h]
      · subst h
        rw [if_neg (lt_irrefl x), if_neg (lt_irrefl x)] at hle ⊢
        exact ih ys hle (fun hh => hne (by rw [hh]))
      · rw [if_neg (fun hh => absurd (lt_trans hh h) (lt_irrefl x)),
          if_pos h] at hle
        cases hle

theorem charsLt_not_ge : ∀ a b : List Nat,
    charsLt a b = true → charsLe b a = true → False := by
  intro a
  induction a with
  | nil =>
    intro b hlt hge
    cases b with
    | nil => simp [charsLt] at hlt
    | cons y ys => simp [charsLe] at hge
  | cons x xs ih =>
    intro b hlt hge
    cases b with
    | nil => simp [charsLt] at hlt
    | cons y ys =>
      simp only [charsLt] at hlt
      simp only [charsLe] at hge
      rcases lt_trichotomy x y with h | h | h
      · rw [if_neg (by exact fun hh => absurd (lt_trans hh h) (lt_irrefl y)),
          if_pos h] at hge
        cases hge
      · subst h
        rw [if_neg (lt_irrefl x), if_neg (lt_irrefl x)] at hlt hge
        exact ih ys hlt hge
      · rw [if_neg (by exact fun hh => absurd (lt_trans hh h) (lt_irrefl x)),
          if_pos h] at hlt
        cases hlt

instance : IsTotal String lowerLe := ⟨fun a b => charsLe_total (lowerChars a) (lowerChars b)⟩

instance : IsTrans String lowerLe := ⟨fun _ _ _ h1 h2 => charsLe_trans _ _ _ h1 h2⟩

/-- Python `sorted` (a stable sort) by the lowercased string. -/
def sortLower (l : List String) : List String := l.insertionSort lowerLe

/-- The id construction: `child_id` is the segment alone when the prefix is empty
(Python truthiness), else prefix, separator and segment concatenated. -/
def mkId (pfx seg : String) : String := if pfx = "" then seg else pfx ++ ":" ++ seg

theorem sizeOf_findSeg {s : String} {cs : List (String × PrefixTree)} {c : PrefixTree}
    (h : findSeg s cs = some c) : sizeOf c < sizeOf cs := by
  induction cs with
  | nil => simp [findSeg] at h
  | cons hd tl ih =>
    simp only [findSeg] at h
    split at h
    · cases h
      cases hd
      simp
      omega
    · have := ih h
      simp
      omega

mutual
/-- Python `_PrefixTree.to_nodes(prefix)`: an empty list for a childless node; otherwise
iterate the segments in case-insensitive sorted order, emitting a leaf entry for each
child that is a key and a folder entry (with the recursively materialized children and
the recounted subtree total minus the child itself when it is a key) for each child
that has children; folders precede leaves. -/
def PrefixTree.to_nodes (t : PrefixTree) (pfx : String) : List DisplayNode :=
  match h : t.childrenOpt with
  | none => []
  | some cs =>
    let r := to_nodesGo cs pfx (sortLower (cs.map (·.1)))
    r.1 ++ r.2
termination_by (sizeOf t, 0)
decreasing_by
  cases t with
  | node cso k n =>
    simp [PrefixTree.childrenOpt] at h
    subst h
    simp
    omega

def to_nodesGo (cs : List (String × PrefixTree)) (pfx : String) (segs : List String) :
    List DisplayNode × List DisplayNode :=
  match segs with
  | [] => ([], [])
  | seg :: rest =>
    match h2 : findSeg seg cs with
    | none => to_nodesGo cs pfx rest
    | some child =>
      let child_id := mkId pfx seg
      let leaf : List DisplayNode :=
        if child.isKeyFlag then [⟨child_id, seg, "key", []⟩] else []
      let folder : List DisplayNode :=
        match child.childrenOpt with
        | none => []
        | some _ =>
          let cnt := (child.recount true).2 - (if child.isKeyFlag then 1 else 0)
          [⟨child_id, seg ++ " (" ++ toString cnt ++ ")", "folder", child.to_nodes child_id⟩]
      let r := to_nodesGo cs pfx rest
      (folder ++ r.1, leaf ++ r.2)
termination_by (sizeOf cs, segs.length + 1)
decreasing_by
  · apply Prod.Lex.right
    simp
  · apply Prod.Lex.left
    exact sizeOf_findSeg h2
  · apply Prod.Lex.right
    simp
end

/-- The folder entry emitted for child `child` under segment `seg`. -/
def folderEntry (pfx seg : String) (child : PrefixTree) : DisplayNode :=
  { id := mkId pfx seg,
    label := seg ++ " (" ++
      toString ((child.recount true).2 - (if child.isKeyFlag then 1 else 0)) ++ ")",
    icon := "folder",
    children := child.to_nodes (mkId pfx seg) }

/-- The leaf entry emitted for a key child under segment `seg`. -/
def leafEntry (pfx seg : String) : DisplayNode :=
  { id := mkId pfx seg, label := seg, icon := "key", children := [] }

def folderSel (cs : List (String × PrefixTree)) (pfx seg : String) : Option DisplayNode :=
  (findSeg seg cs).bind fun c =>
    if c.childrenOpt.isSome then some (folderEntry pfx seg c) else none

def leafSel (cs : List (String × PrefixTree)) (pfx seg : String) : Option DisplayNode :=
  (findSeg seg cs).bind fun c =>
    if c.isKeyFlag then some (leafEntry pfx seg) else none

theorem to_nodesGo_eq (cs : List (String × PrefixTree)) (pfx : String) :
    ∀ segs, to_nodesGo cs pfx segs =
      (segs.filterMap (folderSel cs pfx), segs.filterMap (leafSel cs pfx)) := by
  intro segs
  induction segs with
  | nil => simp [to_nodesGo]
  | cons seg rest ih =>
    rw [to_nodesGo]
    cases hf : findSeg seg cs with
    | none =>
      simp only [ih, List.filterMap_cons, folderSel, leafSel, hf, Option.none_bind]
    | some child =>
      simp only [ih, List.filterMap_cons, folderSel, leafSel, hf, Option.some_bind]
      cases hck : child.childrenOpt with
      | none =>
        cases hk : child.isKeyFlag <;>
          simp [hck, hk, folderEntry, leafEntry]
      | some l =>
        cases hk : child.isKeyFlag <;>
          simp [hck, hk, folderEntry, leafEntry]

/-! ## Characterizing a materialized level -/

/-- The child reached from `t` by segment `seg` (`self.children[segment]`). -/
def childAt (t : PrefixTree) (seg : String) : PrefixTree :=
  (findSeg seg (t.childrenOpt.getD [])).getD emptyTree

/-- The child segments of a node in materialization (sorted) order. -/
def childSegs (t : PrefixTree) : List String :=
  sortLower ((t.childrenOpt.getD []).map (·.1))

/-- Whether the child at `seg` exists and itself has children. -/
def hasKids (t : PrefixTree) (seg : String) : Bool :=
  ((findSeg seg (t.childrenOpt.getD [])).map (fun c => c.childrenOpt.isSome)).getD false

/-- Whether the child at `seg` exists and is a key. -/
def isKeySeg (t : PrefixTree) (seg : String) : Bool :=
  ((findSeg seg (t.childrenOpt.getD [])).map PrefixTree.isKeyFlag).getD false

/-- The segments materialized as folder entries, in order. -/
def folderSegs (t : PrefixTree) : List String := (childSegs t).filter (hasKids t)

/-- The segments materialized as leaf entries, in order. -/
def leafSegs (t : PrefixTree) : List String := (childSegs t).filter (isKeySeg t)

theorem filterMap_folderSel (t : PrefixTree) (pfx : String) :
    ∀ segs : List String,
    segs.filterMap (folderSel (t.childrenOpt.getD []) pfx)
      = (segs.filter (hasKids t)).map (fun s => folderEntry pfx s (childAt t s)) := by
  intro segs
  induction segs with
  | nil => simp
  | cons seg rest ih =>
    rw [List.filterMap_cons, List.filter_cons]
    cases hf : findSeg seg (t.childrenOpt.getD []) with
    | none =>
      have h1 : folderSel (t.childrenOpt.getD []) pfx seg = none := by
        simp [folderSel, hf]
      have h2 : hasKids t seg = false := by
        simp [hasKids, hf]
      rw [h1, h2, ih]
      simp
    | some c =>
      cases hck : c.childrenOpt.isSome with
      | false =>
        have h1 : folderSel (t.childrenOpt.getD []) pfx seg = none := by
          simp [folderSel, hf, hck]
        have h2 : hasKids t seg = false := by
          simp [hasKids, hf, hck]
        rw [h1, h2, ih]
        simp
      | true =>
        have h1 : folderSel (t.childrenOpt.getD []) pfx seg
            = some (folderEntry pfx seg c) := by
          simp [folderSel, hf, hck]
        have h2 : hasKids t seg = true := by
          simp [hasKids, hf, hck]
        have h3 : childAt t seg = c := by
          simp [childAt, hf]
        rw [h1, h2, ih]
        simp [h3]

theorem filterMap_leafSel (t : PrefixTree) (pfx : String) :
    ∀ segs : List String,
    segs.filterMap (leafSel (t.childrenOpt.getD []) pfx)
      = (segs.filter (isKeySeg t)).map (fun s => leafEntry pfx s) := by
  intro segs
  induction segs with
  | nil => simp
  | cons seg rest ih =>
    rw [List.filterMap_cons, List.filter_cons]
    cases hf : findSeg seg (t.childrenOpt.getD []) with
    | none =>
      have h1 : leafSel (t.childrenOpt.getD []) pfx seg = none := by
        simp [leafSel, hf]
      have h2 : isKeySeg t seg = false := by
        simp [isKeySeg, hf]
      rw [h1, h2, ih]
      simp
    | some c =>
      cases hk : c.isKeyFlag with
      | false =>
        have h1 : leafSel (t.childrenOpt.getD []) pfx seg = none := by
          simp [leafSel, hf, hk]
        have h2 : isKeySeg t seg = false := by
          simp [isKeySeg, hf, hk]
        rw [h1, h2, ih]
        simp
      | true =>
        have h1 : leafSel (t.childrenOpt.getD []) pfx seg = some (leafEntry pfx seg) := by
          simp [leafSel, hf, hk]
        have h2 : isKeySeg t seg = true := by
          simp [isKeySeg, hf, hk]
        rw [h1, h2, ih]
        simp

theorem to_nodes_none (k : Bool) (n : Nat) (pfx : String) :
    (PrefixTree.node none k n).to_nodes pfx = [] := by
  rw [PrefixTree.to_nodes]
  exact rfl

theorem to_nodes_some (cs : List (String × PrefixTree)) (k : Bool) (n : Nat) (pfx : String) :
    (PrefixTree.node (some cs) k n).to_nodes pfx =
      (to_nodesGo cs pfx (sortLower (cs.map (·.1)))).1
        ++ (to_nodesGo cs pfx (sortLower (cs.map (·.1)))).2 := by
  rw [PrefixTree.to_nodes]
  exact rfl

/-- Materialisation `to_nodes` is the sorted folder entries followed by the sorted leaf entries. -/
theorem to_nodes_char (t : PrefixTree) (pfx : String) :
    t.to_nodes pfx
      = (folderSegs t).map (fun s => folderEntry pfx s (childAt t s))
        ++ (leafSegs t).map (fun s => leafEntry pfx s) := by
  cases t with
  | node cso k n =>
    cases cso with
    | none =>
      rw [to_nodes_none]
      simp [folderSegs, leafSegs, childSegs, sortLower, List.insertionSort]
    | some cs =>
      rw [to_nodes_some, to_nodesGo_eq]
      have hg : (PrefixTree.node (some cs) k n).childrenOpt.getD [] = cs := rfl
      rw [show cs = (PrefixTree.node (some cs) k n).childrenOpt.getD [] from rfl]
      rw [filterMap_folderSel, filterMap_leafSel]
      rfl

theorem mem_sortLower {s : String} {l : List String} : s ∈ sortLower l ↔ s ∈ l :=
  (List.perm_insertionSort lowerLe l).mem_iff

/-! ## C3: the folder label count -/

/-- C3 counterexample: for keys a and a:b, the subtree at child a contains 2 is_key
nodes (a itself and a:b), yet the materialized folder label reads "a (1)": the label
count excludes the node itself, contradicting the claimed inclusive count. -/
theorem C3_folder_label_cex :
    (buildTrieKeys ["a", "a:b"]).to_nodes "" =
      [{ id := "a", label := "a (1)", icon := "folder",
         children := [{ id := "a:b", label := "b", icon := "key", children := [] }] },
       { id := "a", label := "a", icon := "key", children := [] }]
    ∧ keyCount (childAt (buildTrieKeys ["a", "a:b"]) "a") = 2
    ∧ ("a (1)" : String) ≠ "a" ++ " (" ++ toString
        (keyCount (childAt (buildTrieKeys ["a", "a:b"]) "a")) ++ ")" := by
  refine ⟨?_, by decide, by decide⟩
  simp [PrefixTree.to_nodes, to_nodesGo, sortLower, lowerLe, List.insertionSort,
    List.orderedInsert, buildTrieKeys, splitKey, splitChars, PrefixTree.insert, emptyTree,
    PrefixTree.childrenOpt, PrefixTree.isKeyFlag, findSeg, mkId, PrefixTree.recount,
    recountList]
  decide

/-- C3 (amended): in the materialized output of any trie level, a folder entry is
emitted exactly for the children that have children, and its label count is the
number of is_key nodes in that child's subtree EXCLUDING the child itself when the
child is simultaneously a key: `keyCount c - (1 if c.is_key else 0)`. -/
theorem C3_folder_label (t : PrefixTree) (pfx : String) :
    (∀ s c, findSeg s (t.childrenOpt.getD []) = some c → c.childrenOpt.isSome = true →
      folderEntry pfx s c ∈ t.to_nodes pfx
      ∧ (folderEntry pfx s c).label
          = s ++ " (" ++ toString (keyCount c - (if c.isKeyFlag = true then 1 else 0)) ++ ")")
    ∧ (∀ d ∈ t.to_nodes pfx, d.icon = "folder" →
        ∃ s c, findSeg s (t.childrenOpt.getD []) = some c ∧ c.childrenOpt.isSome = true
          ∧ d = folderEntry pfx s c) := by
  constructor
  · intro s c hf hck
    constructor
    · rw [to_nodes_char]
      apply List.mem_append_left
      have hcA : childAt t s = c := by simp [childAt, hf]
      have hmem : s ∈ folderSegs t := by
        rw [folderSegs, List.mem_filter]
        refine ⟨mem_sortLower.mpr (findSeg_some_key_mem hf), ?_⟩
        simp [hasKids, hf, hck]
      rw [← hcA]
      exact List.mem_map.mpr ⟨s, hmem, rfl⟩
    · rw [folderEntry]
      simp only [recount_snd]
  · intro d hd hicon
    rw [to_nodes_char] at hd
    rcases List.mem_append.mp hd with hd | hd
    · obtain ⟨s, hs, rfl⟩ := List.mem_map.mp hd
      rw [folderSegs, List.mem_filter] at hs
      have hk := hs.2
      rw [hasKids] at hk
      cases hf : findSeg s (t.childrenOpt.getD []) with
      | none => rw [hf] at hk; simp at hk
      | some c =>
        rw [hf] at hk
        simp at hk
        have hcA : childAt t s = c := by simp [childAt, hf]
        exact ⟨s, c, hf, hk, by rw [hcA]⟩
    · obtain ⟨s, _, rfl⟩ := List.mem_map.mp hd
      rw [leafEntry] at hicon
      simp at hicon

/-- C3 amended witness: for keys a and a:b the folder entry for child a is present
with label "a (1)" = keyCount 2 minus 1 for the key itself. -/
theorem C3_folder_label_witness :
    findSeg "a" ((buildTrieKeys ["a", "a:b"]).childrenOpt.getD [])
        = some (childAt (buildTrieKeys ["a", "a:b"]) "a")
    ∧ (childAt (buildTrieKeys ["a", "a:b"]) "a").childrenOpt.isSome = true
    ∧ (folderEntry "" "a" (childAt (buildTrieKeys ["a", "a:b"]) "a")
          ∈ (buildTrieKeys ["a", "a:b"]).to_nodes ""
      ∧ (folderEntry "" "a" (childAt (buildTrieKeys ["a", "a:b"]) "a")).label
          = "a" ++ " (" ++ toString (keyCount (childAt (buildTrieKeys ["a", "a:b"]) "a")
              - (if (childAt (buildTrieKeys ["a", "a:b"]) "a").isKeyFlag = true
                 then 1 else 0)) ++ ")") :=
  ⟨rfl, by decide,
    (C3_folder_label (buildTrieKeys ["a", "a:b"]) "").1 "a"
      (childAt (buildTrieKeys ["a", "a:b"]) "a") rfl (by decide)⟩

/-! ## C4: sibling ordering in materialized output -/

/-- Segment `a` appears strictly before segment `b` in the list `l`. -/
def SegBefore (l : List String) (a b : String) : Prop :=
  ∃ i j : Nat, i < j ∧ l[i]? = some a ∧ l[j]? = some b

theorem sortLower_sorted (l : List String) : List.Pairwise lowerLe (sortLower l) :=
  List.sorted_insertionSort lowerLe l

theorem segBefore_iff {l : List String} (hs : List.Pairwise lowerLe l)
    {a b : String} (ha : a ∈ l) (hb : b ∈ l) (hne : lowerChars a ≠ lowerChars b) :
    SegBefore l a b ↔ lowerLt a b := by
  constructor
  · rintro ⟨i, j, hij, hia, hjb⟩
    obtain ⟨hi, hia'⟩ := List.getElem?_eq_some_iff.mp hia
    obtain ⟨hj, hjb'⟩ := List.getElem?_eq_some_iff.mp hjb
    have hpw := List.pairwise_iff_getElem.mp hs i j hi hj hij
    rw [hia', hjb'] at hpw
    exact charsLt_of_le_of_ne _ _ hpw hne
  · intro hlt
    obtain ⟨i, hi, hia⟩ := List.mem_iff_getElem.mp ha
    obtain ⟨j, hj, hjb⟩ := List.mem_iff_getElem.mp hb
    have hij : i < j := by
      rcases lt_trichotomy i j with h | h | h
      · exact h
      · exfalso
        subst h
        rw [hia] at hjb
        rw [hjb] at hne
        exact hne rfl
      · exfalso
        have hpw := List.pairwise_iff_getElem.mp hs j i hj hi h
        rw [hia, hjb] at hpw
        exact charsLt_not_ge _ _ hlt hpw
    exact ⟨i, j, hij, by rw [List.getElem?_eq_getElem hi, hia],
      by rw [List.getElem?_eq_getElem hj, hjb]⟩

theorem childSegs_nodup {t : PrefixTree} (hwf : wfb t = true) : (childSegs t).Nodup := by
  rw [childSegs, sortLower, (List.perm_insertionSort lowerLe _).nodup_iff]
  cases t with
  | node cso k n =>
    cases cso with
    | none => exact List.nodup_nil
    | some cs =>
      rw [wfb_node_some, Bool.and_eq_true] at hwf
      exact (nodupSegs_iff cs).mp hwf.1

/-- C4 counterexample: with the two keys a and A (inserted in this order), both are
pure leaves under the root; a precedes A in the materialized sibling order (the
stable sort keeps the tie in insertion order), yet lower(a) < lower(A) is false, so
the claimed iff fails. -/
theorem C4_ordering_cex :
    SegBefore (leafSegs (buildTrieKeys ["a", "A"])) "a" "A"
    ∧ ¬ lowerLt "a" "A" := by
  constructor
  · refine ⟨0, 1, by omega, ?_, ?_⟩ <;> decide
  · decide

/-- C4 (amended): in the materialized output of any well-formed trie level, folder
entries (all icon "folder") precede leaf entries (all icon "key"); among sibling
components materialized in the same kind whose lowercased forms differ, a precedes b
iff lower(a) < lower(b) (ties of the case-insensitive key are ordered by the stable
sort, i.e. dict insertion order, where the iff does not apply); and a child that is
both a key and a parent appears exactly once among the folders and exactly once among
the leaves. -/
theorem C4_ordering (t : PrefixTree) (pfx : String) (hwf : wfb t = true) :
    (t.to_nodes pfx
        = (folderSegs t).map (fun s => folderEntry pfx s (childAt t s))
          ++ (leafSegs t).map (fun s => leafEntry pfx s))
    ∧ (∀ d ∈ (folderSegs t).map (fun s => folderEntry pfx s (childAt t s)),
        d.icon = "folder")
    ∧ (∀ d ∈ (leafSegs t).map (fun s => leafEntry pfx s), d.icon = "key")
    ∧ (∀ a b, a ∈ folderSegs t → b ∈ folderSegs t → lowerChars a ≠ lowerChars b →
        (SegBefore (folderSegs t) a b ↔ lowerLt a b))
    ∧ (∀ a b, a ∈ leafSegs t → b ∈ leafSegs t → lowerChars a ≠ lowerChars b →
        (SegBefore (leafSegs t) a b ↔ lowerLt a b))
    ∧ (∀ s c, findSeg s (t.childrenOpt.getD []) = some c → c.isKeyFlag = true →
        c.childrenOpt.isSome = true →
        (folderSegs t).count s = 1 ∧ (leafSegs t).count s = 1) := by
  refine ⟨to_nodes_char t pfx, ?_, ?_, ?_, ?_, ?_⟩
  · intro d hd
    obtain ⟨s, _, rfl⟩ := List.mem_map.mp hd
    rfl
  · intro d hd
    obtain ⟨s, _, rfl⟩ := List.mem_map.mp hd
    rfl
  · intro a b ha hb hne
    exact segBefore_iff ((sortLower_sorted _).filter _) ha hb hne
  · intro a b ha hb hne
    exact segBefore_iff ((sortLower_sorted _).filter _) ha hb hne
  · intro s c hf hk hck
    have hmem : s ∈ childSegs t := mem_sortLower.mpr (findSeg_some_key_mem hf)
    have hnf : (folderSegs t).Nodup := (childSegs_nodup hwf).filter _
    have hnl : (leafSegs t).Nodup := (childSegs_nodup hwf).filter _
    constructor
    · apply List.count_eq_one_of_mem hnf
      rw [folderSegs, List.mem_filter]
      exact ⟨hmem, by simp [hasKids, hf, hck]⟩
    · apply List.count_eq_one_of_mem hnl
      rw [leafSegs, List.mem_filter]
      exact ⟨hmem, by simp [isKeySeg, hf, hk]⟩

/-- C4 amended witness, instantiated for keys a, a:b, z:c at the root level. -/
theorem C4_ordering_witness :
    wfb (buildTrieKeys ["a", "a:b", "z:c"]) = true
    ∧ ((buildTrieKeys ["a", "a:b", "z:c"]).to_nodes ""
        = (folderSegs (buildTrieKeys ["a", "a:b", "z:c"])).map
            (fun s => folderEntry "" s (childAt (buildTrieKeys ["a", "a:b", "z:c"]) s))
          ++ (leafSegs (buildTrieKeys ["a", "a:b", "z:c"])).map (fun s => leafEntry "" s)
      ∧ (∀ d ∈ (folderSegs (buildTrieKeys ["a", "a:b", "z:c"])).map
            (fun s => folderEntry "" s (childAt (buildTrieKeys ["a", "a:b", "z:c"]) s)),
          d.icon = "folder")
      ∧ (∀ d ∈ (leafSegs (buildTrieKeys ["a", "a:b", "z:c"])).map (fun s => leafEntry "" s),
          d.icon = "key")
      ∧ (∀ a b, a ∈ folderSegs (buildTrieKeys ["a", "a:b", "z:c"])
          → b ∈ folderSegs (buildTrieKeys ["a", "a:b", "z:c"])
          → lowerChars a ≠ lowerChars b →
          (SegBefore (folderSegs (buildTrieKeys ["a", "a:b", "z:c"])) a b
            ↔ lowerLt a b))
      ∧ (∀ a b, a ∈ leafSegs (buildTrieKeys ["a", "a:b", "z:c"])
          → b ∈ leafSegs (buildTrieKeys ["a", "a:b", "z:c"])
          → lowerChars a ≠ lowerChars b →
          (SegBefore (leafSegs (buildTrieKeys ["a", "a:b", "z:c"])) a b
            ↔ lowerLt a b))
      ∧ (∀ s c, findSeg s ((buildTrieKeys ["a", "a:b", "z:c"]).childrenOpt.getD [])
            = some c → c.isKeyFlag = true → c.childrenOpt.isSome = true →
          (folderSegs (buildTrieKeys ["a", "a:b", "z:c"])).count s = 1
            ∧ (leafSegs (buildTrieKeys ["a", "a:b", "z:c"])).count s = 1)) :=
  ⟨by decide, C4_ordering (buildTrieKeys ["a", "a:b", "z:c"]) "" (by decide)⟩

/-! ## The connection manager (`ThreadSafeRedisManager`) -/

/-- The manager's mutable state: the two optional Redis clients (by id), the optional
worker pool, and the recorded connection target. -/
structure RedisState where
  client : Option Nat
  raw_client : Option Nat
  executor : Option Nat
  host : String
  port : Nat
  db : Nat
  password : String
  username : String

/-- Side effects performed against clients and the pool, in order. -/
inductive RedisEffect where
  | pingTest (host : String) (port : Nat) (ok : Bool)
  | closeTestClient
  | closeClient (id : Nat)
  | closeRawClient (id : Nat)
  | shutdownExecutor (id : Nat)
  | selectClient (id : Nat) (db : Nat)
  | selectRawClient (id : Nat) (db : Nat)
  | submitToPool (id : Nat) (timeout : Nat)
  deriving DecidableEq

def RedisState.isConnected (st : RedisState) : Bool := st.client.isSome

/-- Python `ThreadSafeRedisManager.connect`: ping a throwaway test client first; a failed
probe raises ConnectionError with no other action taken; only on success are the old
clients closed, the old pool shut down, the target recorded, and fresh clients and a
fresh pool installed. -/
def RedisState.connect (st : RedisState) (host : String) (port db : Nat)
    (password username : String) (probeOk : Bool) (newClient newRaw newExec : Nat) :
    RedisState × Option String × List RedisEffect :=
  if !probeOk then
    (st, some ("Failed to connect to " ++ host ++ ":" ++ toString port),
      [.pingTest host port false, .closeTestClient])
  else
    let closeOld :=
      (match st.client with | some c => [RedisEffect.closeClient c] | none => [])
      ++ (match st.raw_client with | some c => [RedisEffect.closeRawClient c] | none => [])
      ++ (match st.executor with | some e => [RedisEffect.shutdownExecutor e] | none => [])
    ({ client := some newClient, raw_client := some newRaw, executor := some newExec,
       host := host, port := port, db := db, password := password, username := username },
     none,
     [.pingTest host port true, .closeTestClient] ++ closeOld)

/-- Python `ThreadSafeRedisManager.select_db`: under the lock, re-point whichever clients
exist at the new logical database and record it; no exception is raised in any case. -/
def RedisState.select_db (st : RedisState) (db : Nat) :
    RedisState × Option String × List RedisEffect :=
  let e1 := match st.client with | some c => [RedisEffect.selectClient c db] | none => []
  let e2 := match st.raw_client with | some c => [RedisEffect.selectRawClient c db] | none => []
  ({ st with db := db }, none, e1 ++ e2)

/-- Python `ThreadSafeRedisManager.execute`: raise ConnectionError immediately when the
executor is gone; otherwise submit the call to the pool and await the future with a
30-second timeout. -/
def RedisState.execute (st : RedisState) : Except String (Nat × Nat) × List RedisEffect :=
  match st.executor with
  | none => (.error "Not connected to Redis", [])
  | some e => (.ok (e, 30), [.submitToPool e 30])

/-- C5: reconnect atomicity. If the probe on the throwaway client fails while the
manager is connected, connect raises ConnectionError and the state is completely
unchanged: same client, raw client, executor and recorded target, still connected;
no close or shutdown effect is performed, and in general a close of the previous
client can only happen on a successful probe. -/
theorem C5_reconnect_atomicity (st : RedisState) (host : String) (port db : Nat)
    (password username : String) (newClient newRaw newExec c0 : Nat)
    (hconn : st.client = some c0) :
    (st.connect host port db password username false newClient newRaw newExec).1 = st
    ∧ ((st.connect host port db password username false newClient newRaw newExec).2.1).isSome
        = true
    ∧ (st.connect host port db password username false newClient newRaw newExec).1.client
        = some c0
    ∧ ((st.connect host port db password username false newClient newRaw newExec).1).isConnected
        = true
    ∧ (∀ id, RedisEffect.closeClient id
        ∉ (st.connect host port db password username false newClient newRaw newExec).2.2)
    ∧ (∀ id, RedisEffect.closeRawClient id
        ∉ (st.connect host port db password username false newClient newRaw newExec).2.2)
    ∧ (∀ id, RedisEffect.shutdownExecutor id
        ∉ (st.connect host port db password username false newClient newRaw newExec).2.2)
    ∧ (∀ probeOk id, RedisEffect.closeClient id
          ∈ (st.connect host port db password username probeOk newClient newRaw newExec).2.2
        → probeOk = true) := by
  refine ⟨rfl, rfl, by rw [RedisState.connect]; exact hconn, ?_, ?_, ?_, ?_, ?_⟩
  · rw [RedisState.connect]
    simp [RedisState.isConnected, hconn]
  · intro id
    rw [RedisState.connect]
    simp
  · intro id
    rw [RedisState.connect]
    simp
  · intro id
    rw [RedisState.connect]
    simp
  · intro probeOk id h
    cases probeOk with
    | true => rfl
    | false =>
      rw [RedisState.connect] at h
      simp at h

/-- C5 witness at a concrete connected state with an unreachable target. -/
theorem C5_reconnect_atomicity_witness :
    let st : RedisState :=
      { client := some 1, raw_client := some 2, executor := some 3,
        host := "localhost", port := 6379, db := 0, password := "", username := "" }
    (st.connect "unreachable" 6380 1 "" "" false 7 8 9).1 = st
    ∧ ((st.connect "unreachable" 6380 1 "" "" false 7 8 9).2.1).isSome = true
    ∧ (st.connect "unreachable" 6380 1 "" "" false 7 8 9).1.client = some 1
    ∧ ((st.connect "unreachable" 6380 1 "" "" false 7 8 9).1).isConnected = true
    ∧ (∀ id, RedisEffect.closeClient id ∉ (st.connect "unreachable" 6380 1 "" "" false 7 8 9).2.2)
    ∧ (∀ id, RedisEffect.closeRawClient id
        ∉ (st.connect "unreachable" 6380 1 "" "" false 7 8 9).2.2)
    ∧ (∀ id, RedisEffect.shutdownExecutor id
        ∉ (st.connect "unreachable" 6380 1 "" "" false 7 8 9).2.2)
    ∧ (∀ probeOk id, RedisEffect.closeClient id
          ∈ (st.connect "unreachable" 6380 1 "" "" probeOk 7 8 9).2.2 → probeOk = true) :=
  C5_reconnect_atomicity
    { client := some 1, raw_client := some 2, executor := some 3,
      host := "localhost", port := 6379, db := 0, password := "", username := "" }
    "unreachable" 6380 1 "" "" 7 8 9 1 rfl

/-- C6: a command submission with no live executor fails immediately with
ConnectionError ("Not connected to Redis") and nothing is queued; with a live
executor the call is submitted to that pool and awaited with the 30-second timeout. -/
theorem C6_execute_not_connected (st : RedisState) :
    (st.executor = none →
      (st.execute).1 = .error "Not connected to Redis" ∧ (st.execute).2 = [])
    ∧ (∀ e, st.executor = some e →
      (st.execute).1 = .ok (e, 30) ∧ (st.execute).2 = [.submitToPool e 30]) := by
  constructor
  · intro h
    rw [RedisState.execute, h]
    exact ⟨rfl, rfl⟩
  · intro e h
    rw [RedisState.execute, h]
    exact ⟨rfl, rfl⟩

/-- C6 witness: a disconnected state fails immediately; a connected one submits. -/
theorem C6_execute_not_connected_witness :
    let stDead : RedisState :=
      { client := none, raw_client := none, executor := none,
        host := "localhost", port := 6379, db := 0, password := "", username := "" }
    let stLive : RedisState :=
      { client := some 1, raw_client := some 2, executor := some 3,
        host := "localhost", port := 6379, db := 0, password := "", username := "" }
    ((stDead.execute).1 = .error "Not connected to Redis" ∧ (stDead.execute).2 = [])
    ∧ ((stLive.execute).1 = .ok (3, 30) ∧ (stLive.execute).2 = [.submitToPool 3 30]) :=
  ⟨(C6_execute_not_connected _).1 rfl, (C6_execute_not_connected _).2 3 rfl⟩

/-! ## C7: select_db when not connected -/

/-- C7 counterexample: calling select_db on a disconnected manager reports no failure
at all — it silently records the new database index and performs no client call,
contradicting the claim that the operation fails when not connected. -/
theorem C7_select_db_cex :
    let stDead : RedisState :=
      { client := none, raw_client := none, executor := none,
        host := "localhost", port := 6379, db := 0, password := "", username := "" }
    (stDead.select_db 3).2.1 = none
    ∧ stDead.isConnected = false
    ∧ (stDead.select_db 3).1.db = 3
    ∧ (stDead.select_db 3).2.2 = [] := by
  exact ⟨rfl, rfl, rfl, rfl⟩

/-- C7 (amended): select_db never raises. When connected it re-points the current
clients at the new logical database without any reconnect (clients and executor are
unchanged and nothing is closed); when not connected it silently records only the
database index and performs no client call. -/
theorem C7_select_db (st : RedisState) (db : Nat) :
    (st.select_db db).2.1 = none
    ∧ (st.select_db db).1.client = st.client
    ∧ (st.select_db db).1.raw_client = st.raw_client
    ∧ (st.select_db db).1.executor = st.executor
    ∧ (st.select_db db).1.db = db
    ∧ (∀ c, st.client = some c → RedisEffect.selectClient c db ∈ (st.select_db db).2.2)
    ∧ (st.client = none → st.raw_client = none → (st.select_db db).2.2 = [])
    ∧ (∀ id, RedisEffect.closeClient id ∉ (st.select_db db).2.2)
    ∧ (∀ id, RedisEffect.shutdownExecutor id ∉ (st.select_db db).2.2) := by
  refine ⟨rfl, rfl, rfl, rfl, rfl, ?_, ?_, ?_, ?_⟩
  · intro c hc
    rw [RedisState.select_db]
    simp [hc]
  · intro h1 h2
    rw [RedisState.select_db]
    simp [h1, h2]
  · intro id
    rw [RedisState.select_db]
    cases st.client <;> cases st.raw_client <;> simp
  · intro id
    rw [RedisState.select_db]
    cases st.client <;> cases st.raw_client <;> simp

/-- C7 amended witness at a concrete connected state. -/
theorem C7_select_db_witness :
    let st : RedisState :=
      { client := some 1, raw_client := some 2, executor := some 3,
        host := "localhost", port := 6379, db := 0, password := "", username := "" }
    (st.select_db 5).2.1 = none
    ∧ (st.select_db 5).1.client = st.client
    ∧ (st.select_db 5).1.raw_client = st.raw_client
    ∧ (st.select_db 5).1.executor = st.executor
    ∧ (st.select_db 5).1.db = 5
    ∧ (∀ c, st.client = some c → RedisEffect.selectClient c 5 ∈ (st.select_db 5).2.2)
    ∧ (st.client = none → st.raw_client = none → (st.select_db 5).2.2 = [])
    ∧ (∀ id, RedisEffect.closeClient id ∉ (st.select_db 5).2.2)
    ∧ (∀ id, RedisEffect.shutdownExecutor id ∉ (st.select_db 5).2.2) :=
  C7_select_db
    { client := some 1, raw_client := some 2, executor := some 3,
      host := "localhost", port := 6379, db := 0, password := "", username := "" } 5

/-! ## C8: exact lookup (`KeysBrowser._try_exact_key`) -/

/-- The browser state touched by `_try_exact_key`. -/
structure BrowserState where
  cursor : Nat
  key_set : List String
  tree : PrefixTree
  count_label : String
  more_visible : Bool
  load_all_visible : Bool

/-- Python `_try_exact_key`: a no-op when not connected; otherwise reset cursor, KeySet and
trie, then query the key's type. A type other than "none" inserts exactly that key
(and recounts); "none" reports "Key not found"; an exception reports the error.  In
every branch the Load more / Load all buttons are hidden. -/
def try_exact_key (st : BrowserState) (isConn : Bool) (key : String)
    (typeResult : Except String String) : BrowserState :=
  if !isConn then st
  else
    match typeResult with
    | .error e =>
      { cursor := 0, key_set := [], tree := emptyTree,
        count_label := "Error: " ++ e, more_visible := false, load_all_visible := false }
    | .ok ty =>
      if ty ≠ "none" then
        { cursor := 0, key_set := [key],
          tree := ((emptyTree.insert (splitKey key)).recount true).1,
          count_label := "Found: " ++ toString 1 ++ " key(s)",
          more_visible := false, load_all_visible := false }
      else
        { cursor := 0, key_set := [], tree := emptyTree,
          count_label := "Key not found", more_visible := false, load_all_visible := false }

/-- C8: exact lookup resets the session state (cursor, KeySet, trie) before running.
For an existing key (type other than "none") the freshly reset index receives exactly
that one key: the KeySet is that singleton, the trie is the single insertion into a
fresh trie, its recounted root count is 1 and the key's path is marked.  For an
absent key (type "none") the index stays empty with root count 0, the label reports
"Key not found", and zero matches are reported rather than an error. -/
theorem C8_exact_lookup (st : BrowserState) (key : String) (ty : String) :
    (try_exact_key st true key (.ok ty)).cursor = 0
    ∧ (ty ≠ "none" →
        (try_exact_key st true key (.ok ty)).key_set = [key]
        ∧ (try_exact_key st true key (.ok ty)).tree
            = ((emptyTree.insert (splitKey key)).recount true).1
        ∧ ((try_exact_key st true key (.ok ty)).tree).countField = 1
        ∧ isKeyAt (try_exact_key st true key (.ok ty)).tree (splitKey key) = true)
    ∧ (ty = "none" →
        (try_exact_key st true key (.ok ty)).key_set = []
        ∧ (try_exact_key st true key (.ok ty)).tree = emptyTree
        ∧ ((try_exact_key st true key (.ok ty)).tree).countField = 0
        ∧ (try_exact_key st true key (.ok ty)).count_label = "Key not found"
        ∧ (try_exact_key st true key (.ok ty)).key_set.length = 0) := by
  have hbuild : buildTrie [splitKey key] = emptyTree.insert (splitKey key) := rfl
  constructor
  · rw [try_exact_key]
    simp only [Bool.not_true]
    cases hty : decide (ty ≠ "none") with
    | false =>
      simp at hty
      simp [hty]
    | true =>
      simp at hty
      simp [hty]
  constructor
  · intro hty
    have hstate : try_exact_key st true key (.ok ty) =
        { cursor := 0, key_set := [key],
          tree := ((emptyTree.insert (splitKey key)).recount true).1,
          count_label := "Found: " ++ toString 1 ++ " key(s)",
          more_visible := false, load_all_visible := false } := by
      rw [try_exact_key]
      simp [hty]
    rw [hstate]
    refine ⟨rfl, rfl, ?_, ?_⟩
    · show (((emptyTree.insert (splitKey key)).recount true).1).countField = 1
      rw [← hbuild]
      have h := count_correct_paths [splitKey key] [] _ (subtreeAt_nil _)
      rw [h]
      simp [isUnder]
    · show isKeyAt ((emptyTree.insert (splitKey key)).recount true).1 (splitKey key) = true
      have hsub : isKeyAt ((emptyTree.insert (splitKey key)).recount true).1 (splitKey key)
          = isKeyAt (emptyTree.insert (splitKey key)) (splitKey key) := by
        rw [isKeyAt, isKeyAt, subtreeAt_recount]
        cases hs : subtreeAt (emptyTree.insert (splitKey key)) (splitKey key) with
        | none => simp
        | some u =>
          simp only [Option.map_map, Option.map_some]
          cases u with
          | node cs k n =>
            cases cs with
            | none => simp [PrefixTree.recount, PrefixTree.isKeyFlag]
            | some l => simp [PrefixTree.recount, PrefixTree.isKeyFlag]
      rw [hsub, isKeyAt_insert]
      exact Or.inl rfl
  · intro hty
    have hstate : try_exact_key st true key (.ok ty) =
        { cursor := 0, key_set := [], tree := emptyTree,
          count_label := "Key not found", more_visible := false,
          load_all_visible := false } := by
      rw [try_exact_key]
      simp [hty]
    rw [hstate]
    exact ⟨rfl, rfl, rfl, rfl, rfl⟩

/-- C8 witness: a present key of type string, and an absent key. -/
theorem C8_exact_lookup_witness :
    let st : BrowserState :=
      { cursor := 7, key_set := ["old"], tree := buildTrieKeys ["old"],
        count_label := "", more_visible := true, load_all_visible := true }
    ((try_exact_key st true "user:1" (.ok "string")).cursor = 0
      ∧ (try_exact_key st true "user:1" (.ok "string")).key_set = ["user:1"]
      ∧ ((try_exact_key st true "user:1" (.ok "string")).tree).countField = 1)
    ∧ ((try_exact_key st true "missing:key" (.ok "none")).key_set = []
      ∧ ((try_exact_key st true "missing:key" (.ok "none")).tree).countField = 0
      ∧ (try_exact_key st true "missing:key" (.ok "none")).count_label = "Key not found") := by
  intro st
  have h1 := C8_exact_lookup st "user:1" "string"
  have h2 := C8_exact_lookup st "missing:key" "none"
  have h1b := h1.2.1 (by decide)
  have h2b := h2.2.2 rfl
  exact ⟨⟨h1.1, h1b.1, h1b.2.2.1⟩, ⟨h2b.1, h2b.2.2.1, h2b.2.2.2.1⟩⟩

/-! ## C9: the drain loop has no cancellation flag -/

/-- The session state shared between the UI thread and the drain thread: the KeySet
and the trie (the drain thread re-reads both attributes on every access). -/
structure SessionState where
  key_set : List String
  tree : PrefixTree

/-- The body of one `_load_all` page: insert each key not already in the KeySet into
the current KeySet and trie. -/
def insertPage (st : SessionState) (keys : List String) : SessionState :=
  keys.foldl (fun s k =>
    if k ∈ s.key_set then s
    else { key_set := s.key_set ++ [k], tree := s.tree.insert (splitKey k) }) st

/-- The only test the drain loop performs between pages: `if cursor == 0: break`.
The source consults no cancellation flag. -/
def drainContinues (cursor : Nat) : Bool := cursor != 0

/-- An interleaving event: a drain page arriving, or `_search`/`_refresh` resetting
the session (replacing the KeySet and trie with fresh ones). -/
inductive ScanEvent where
  | page (keys : List String)
  | reset

/-- Execute an interleaving of drain pages and session resets against the shared
session state, exactly as the attribute reads in the source resolve them. -/
def runEvents (st : SessionState) : List ScanEvent → SessionState
  | [] => st
  | .page keys :: rest => runEvents (insertPage st keys) rest
  | .reset :: rest => runEvents { key_set := [], tree := emptyTree } rest

/-- C9: the drain loop of `_load_all` continues past a session reset without bound:
its only between-pages check is `cursor == 0`, so after a new search resets the
session, every remaining page of the old drain — here a second page after the reset,
beyond the tolerated single in-flight page — still inserts its keys into the new
session's KeySet and trie. -/
theorem C9_drain_not_cancelled :
    drainContinues 7 = true
    ∧ (runEvents { key_set := [], tree := emptyTree }
        [.page ["a"], .reset, .page ["b"], .page ["c"]]).key_set = ["b", "c"]
    ∧ "c" ∈ (runEvents { key_set := [], tree := emptyTree }
        [.page ["a"], .reset, .page ["b"], .page ["c"]]).key_set
    ∧ isKeyAt (runEvents { key_set := [], tree := emptyTree }
        [.page ["a"], .reset, .page ["b"], .page ["c"]]).tree (splitKey "c") = true := by
  refine ⟨rfl, ?_, ?_, ?_⟩ <;> decide

/-! ## C10: flattened leaf ids round-trip the inserted keys -/

/-- Flatten a materialized node list into all entries, depth first. -/
def flattenNodes : List DisplayNode → List DisplayNode
  | [] => []
  | d :: rest => d :: (flattenNodes d.children ++ flattenNodes rest)
termination_by l => sizeOf l
decreasing_by
  · cases d
    simp
    try omega
  · simp
    try omega

/-- The ids of the leaf entries (icon "key") in the flattened materialized output. -/
def leafIdsOf (l : List DisplayNode) : List String :=
  ((flattenNodes l).filter (fun d => d.icon == "key")).map (·.id)

theorem flattenNodes_nil : flattenNodes [] = [] := by
  rw [flattenNodes]

theorem flattenNodes_cons (d : DisplayNode) (rest : List DisplayNode) :
    flattenNodes (d :: rest) = d :: (flattenNodes d.children ++ flattenNodes rest) := by
  rw [flattenNodes]

theorem flattenNodes_append : ∀ a b : List DisplayNode,
    flattenNodes (a ++ b) = flattenNodes a ++ flattenNodes b := by
  intro a
  induction a with
  | nil => intro b; rw [flattenNodes_nil]; simp
  | cons d rest ih =>
    intro b
    rw [List.cons_append, flattenNodes_cons, flattenNodes_cons, ih]
    simp

theorem leafIdsOf_nil : leafIdsOf [] = [] := by
  rw [leafIdsOf, flattenNodes_nil]
  rfl

theorem leafIdsOf_append (a b : List DisplayNode) :
    leafIdsOf (a ++ b) = leafIdsOf a ++ leafIdsOf b := by
  rw [leafIdsOf, leafIdsOf, leafIdsOf, flattenNodes_append, List.filter_append,
    List.map_append]

theorem leafIdsOf_single (d : DisplayNode) :
    leafIdsOf [d] = (if d.icon == "key" then [d.id] else []) ++ leafIdsOf d.children := by
  rw [leafIdsOf, flattenNodes_cons, flattenNodes_nil, List.append_nil]
  rw [List.filter_cons]
  cases h : (d.icon == "key") <;> simp [h, leafIdsOf]

/-- The id of the node reached along a component path: fold `mkId` over the path. -/
def idPath (pfx : String) (p : List String) : String := p.foldl mkId pfx

/-- Rejoining path components with the `:` delimiter. -/
def joinKey (p : List String) : String := ⟨joinChars (p.map String.data)⟩

mutual
/-- The component paths of the leaf entries produced by `to_nodes`, in output order. -/
def leafPaths (t : PrefixTree) : List (List String) :=
  match h : t.childrenOpt with
  | none => []
  | some cs =>
    let r := leafPathsGo cs (sortLower (cs.map (·.1)))
    r.1 ++ r.2
termination_by (sizeOf t, 0)
decreasing_by
  cases t with
  | node cso k n =>
    simp [PrefixTree.childrenOpt] at h
    subst h
    simp
    omega

def leafPathsGo (cs : List (String × PrefixTree)) (segs : List String) :
    List (List String) × List (List String) :=
  match segs with
  | [] => ([], [])
  | seg :: rest =>
    match h2 : findSeg seg cs with
    | none => leafPathsGo cs rest
    | some child =>
      let leaf : List (List String) := if child.isKeyFlag then [[seg]] else []
      let folder : List (List String) :=
        match child.childrenOpt with
        | none => []
        | some _ => (leafPaths child).map (seg :: ·)
      let r := leafPathsGo cs rest
      (folder ++ r.1, leaf ++ r.2)
termination_by (sizeOf cs, segs.length + 1)
decreasing_by
  · apply Prod.Lex.right
    simp
  · apply Prod.Lex.left
    exact sizeOf_findSeg h2
  · apply Prod.Lex.right
    simp
end

theorem leafPaths_none (k : Bool) (n : Nat) : leafPaths (.node none k n) = [] := by
  rw [leafPaths]
  exact rfl

theorem leafPaths_some (cs : List (String × PrefixTree)) (k : Bool) (n : Nat) :
    leafPaths (.node (some cs) k n) =
      (leafPathsGo cs (sortLower (cs.map (·.1)))).1
        ++ (leafPathsGo cs (sortLower (cs.map (·.1)))).2 := by
  rw [leafPaths]
  exact rfl

theorem leafIdsOf_to_nodes_bound : ∀ (N : Nat) (t : PrefixTree) (pfx : String),
    sizeOf t ≤ N → leafIdsOf (t.to_nodes pfx) = (leafPaths t).map (idPath pfx) := by
  intro N
  induction N with
  | zero =>
    intro t pfx h
    cases t with
    | node cso k n => simp at h
  | succ m ih =>
    intro t pfx hle
    cases t with
    | node cso k n =>
      cases cso with
      | none =>
        rw [to_nodes_none, leafPaths_none, leafIdsOf_nil]
        rfl
      | some cs =>
        have hcs : sizeOf cs ≤ m := by
          simp at hle
          omega
        have hgo : ∀ segs : List String,
            leafIdsOf (to_nodesGo cs pfx segs).1
              = ((leafPathsGo cs segs).1).map (idPath pfx)
            ∧ leafIdsOf (to_nodesGo cs pfx segs).2
              = ((leafPathsGo cs segs).2).map (idPath pfx) := by
          intro segs
          induction segs with
          | nil =>
            rw [to_nodesGo, leafPathsGo]
            exact ⟨leafIdsOf_nil, leafIdsOf_nil⟩
          | cons seg rest ihs =>
            rw [to_nodesGo, leafPathsGo]
            cases hf : findSeg seg cs with
            | none =>
              simp only [hf]
              exact ihs
            | some child =>
              have hchild : sizeOf child ≤ m :=
                le_trans (le_of_lt (sizeOf_findSeg hf)) hcs
              have hrec := ih child (mkId pfx seg) hchild
              simp only [hf]
              constructor
              · rw [leafIdsOf_append, List.map_append, ihs.1]
                congr 1
                cases hck : child.childrenOpt with
                | none => rw [leafIdsOf_nil]; rfl
                | some l =>
                  rw [leafIdsOf_single]
                  have hicon : (("folder" : String) == "key") = false := by decide
                  rw [hicon]
                  simp only [List.nil_append]
                  show leafIdsOf (child.to_nodes (mkId pfx seg))
                    = ((leafPaths child).map (seg :: ·)).map (idPath pfx)
                  rw [hrec, List.map_map]
                  rfl
              · rw [leafIdsOf_append, List.map_append, ihs.2]
                congr 1
                cases hk : child.isKeyFlag with
                | false => simp [leafIdsOf_nil]
                | true => simp [leafIdsOf_single, leafIdsOf_nil, idPath]
        rw [to_nodes_some, leafPaths_some, leafIdsOf_append, (hgo _).1, (hgo _).2,
          List.map_append]

theorem leafIdsOf_to_nodes (t : PrefixTree) (pfx : String) :
    leafIdsOf (t.to_nodes pfx) = (leafPaths t).map (idPath pfx) :=
  leafIdsOf_to_nodes_bound (sizeOf t) t pfx (le_refl _)

theorem leafPathsGo_nil (cs : List (String × PrefixTree)) :
    leafPathsGo cs [] = ([], []) := by
  rw [leafPathsGo]

theorem isKeyAt_cons_children {c : PrefixTree} {x : String} {xs : List String}
    (h : isKeyAt c (x :: xs) = true) : c.childrenOpt.isSome = true := by
  cases c with
  | node cso k n =>
    cases cso with
    | none => rw [isKeyAt_cons_none] at h; cases h
    | some l => rfl

theorem isKeyAt_nil_flag (t : PrefixTree) : isKeyAt t [] = t.isKeyFlag := by
  cases t with
  | node a b c =>
    rw [isKeyAt_nil]
    rfl

theorem mem_leafPathsGo (cs : List (String × PrefixTree)) :
    ∀ (segs : List String) (q : List String),
    (q ∈ (leafPathsGo cs segs).1 ↔
      ∃ seg, seg ∈ segs ∧ ∃ child, findSeg seg cs = some child
        ∧ child.childrenOpt.isSome = true ∧ ∃ p, p ∈ leafPaths child ∧ q = seg :: p)
    ∧ (q ∈ (leafPathsGo cs segs).2 ↔
      ∃ seg, seg ∈ segs ∧ ∃ child, findSeg seg cs = some child
        ∧ child.isKeyFlag = true ∧ q = [seg]) := by
  intro segs
  induction segs with
  | nil =>
    intro q
    rw [leafPathsGo_nil]
    simp
  | cons seg rest ihs =>
    intro q
    rw [leafPathsGo]
    cases hf : findSeg seg cs with
    | none =>
      simp only [hf]
      constructor
      · rw [(ihs q).1]
        constructor
        · rintro ⟨s', hs', rest'⟩
          exact ⟨s', List.mem_cons_of_mem _ hs', rest'⟩
        · rintro ⟨s', hs', child, hfind, hrest⟩
          rcases List.mem_cons.mp hs' with h | h
          · rw [h] at hfind
            rw [hfind] at hf
            cases hf
          · exact ⟨s', h, child, hfind, hrest⟩
      · rw [(ihs q).2]
        constructor
        · rintro ⟨s', hs', rest'⟩
          exact ⟨s', List.mem_cons_of_mem _ hs', rest'⟩
        · rintro ⟨s', hs', child, hfind, hrest⟩
          rcases List.mem_cons.mp hs' with h | h
          · rw [h] at hfind
            rw [hfind] at hf
            cases hf
          · exact ⟨s', h, child, hfind, hrest⟩
    | some child =>
      simp only [hf]
      constructor
      · rw [List.mem_append, (ihs q).1]
        constructor
        · rintro (hq | ⟨s', hs', rest'⟩)
          · cases hck : child.childrenOpt with
            | none => rw [hck] at hq; cases hq
            | some l =>
              rw [hck] at hq
              obtain ⟨p, hp, rfl⟩ := List.mem_map.mp hq
              exact ⟨seg, List.mem_cons_self .., child, hf, by rw [hck]; rfl, p, hp, rfl⟩
          · exact ⟨s', List.mem_cons_of_mem _ hs', rest'⟩
        · rintro ⟨s', hs', child', hfind, hck, p, hp, rfl⟩
          rcases List.mem_cons.mp hs' with h | h
          · subst h
            rw [hf, Option.some.injEq] at hfind
            subst hfind
            left
            cases hck2 : child.childrenOpt with
            | none => rw [hck2] at hck; cases hck
            | some l =>
              exact List.mem_map.mpr ⟨p, hp, rfl⟩
          · exact Or.inr ⟨s', h, child', hfind, hck, p, hp, rfl⟩
      · rw [List.mem_append, (ihs q).2]
        constructor
        · rintro (hq | ⟨s', hs', rest'⟩)
          · cases hk : child.isKeyFlag with
            | false => rw [hk] at hq; simp at hq
            | true =>
              rw [hk] at hq
              simp at hq
              exact ⟨seg, List.mem_cons_self .., child, hf, hk, hq⟩
          · exact ⟨s', List.mem_cons_of_mem _ hs', rest'⟩
        · rintro ⟨s', hs', child', hfind, hk, rfl⟩
          rcases List.mem_cons.mp hs' with h | h
          · subst h
            rw [hf, Option.some.injEq] at hfind
            subst hfind
            left
            rw [hk]
            simp
          · exact Or.inr ⟨s', h, child', hfind, hk, rfl⟩

theorem mem_leafPaths_bound : ∀ (N : Nat) (t : PrefixTree), sizeOf t ≤ N →
    ∀ q, (q ∈ leafPaths t ↔ (q ≠ [] ∧ isKeyAt t q = true)) := by
  intro N
  induction N with
  | zero =>
    intro t h
    cases t with
    | node cso k n => simp at h
  | succ m ih =>
    intro t hle q
    cases t with
    | node cso k n =>
      cases cso with
      | none =>
        rw [leafPaths_none]
        simp only [List.not_mem_nil, false_iff]
        rintro ⟨hne, hk⟩
        cases q with
        | nil => exact hne rfl
        | cons x xs => rw [isKeyAt_cons_none] at hk; cases hk
      | some cs =>
        have hcs : sizeOf cs ≤ m := by
          simp at hle
          omega
        rw [leafPaths_some, List.mem_append, (mem_leafPathsGo cs _ q).1,
          (mem_leafPathsGo cs _ q).2]
        constructor
        · rintro (⟨seg, hseg, child, hfind, hck, p, hp, rfl⟩ | ⟨seg, hseg, child, hfind, hk, rfl⟩)
          · have hchild : sizeOf child ≤ m :=
              le_trans (le_of_lt (sizeOf_findSeg hfind)) hcs
            obtain ⟨hpne, hpk⟩ := (ih child hchild p).mp hp
            refine ⟨by simp, ?_⟩
            rw [isKeyAt_cons_some, hfind]
            exact hpk
          · refine ⟨by simp, ?_⟩
            rw [isKeyAt_cons_some, hfind]
            show isKeyAt child [] = true
            rw [isKeyAt_nil_flag]
            exact hk
        · rintro ⟨hne, hk⟩
          cases q with
          | nil => exact absurd rfl hne
          | cons seg qs =>
            rw [isKeyAt_cons_some] at hk
            cases hfind : findSeg seg cs with
            | none => rw [hfind] at hk; cases hk
            | some child =>
              rw [hfind] at hk
              have hchild : sizeOf child ≤ m :=
                le_trans (le_of_lt (sizeOf_findSeg hfind)) hcs
              have hsegmem : seg ∈ sortLower (cs.map (·.1)) :=
                mem_sortLower.mpr (findSeg_some_key_mem hfind)
              cases qs with
              | nil =>
                right
                have hk2 : isKeyAt child [] = true := hk
                rw [isKeyAt_nil_flag] at hk2
                exact ⟨seg, hsegmem, child, hfind, hk2, rfl⟩
              | cons x xs =>
                left
                refine ⟨seg, hsegmem, child, hfind, isKeyAt_cons_children hk, x :: xs,
                  ?_, rfl⟩
                exact (ih child hchild (x :: xs)).mpr ⟨by simp, hk⟩

theorem mem_leafPaths (t : PrefixTree) (q : List String) :
    q ∈ leafPaths t ↔ (q ≠ [] ∧ isKeyAt t q = true) :=
  mem_leafPaths_bound (sizeOf t) t (le_refl _) q

theorem leafPaths_nodup_bound : ∀ (N : Nat) (t : PrefixTree), sizeOf t ≤ N →
    wfb t = true → (leafPaths t).Nodup := by
  intro N
  induction N with
  | zero =>
    intro t h
    cases t with
    | node cso k n => simp at h
  | succ m ih =>
    intro t hle hw
    cases t with
    | node cso k n =>
      cases cso with
      | none => rw [leafPaths_none]; exact List.nodup_nil
      | some cs =>
        have hcs : sizeOf cs ≤ m := by
          simp at hle
          omega
        rw [wfb_node_some, Bool.and_eq_true] at hw
        have hgo : ∀ segs : List String, segs.Nodup →
            ((leafPathsGo cs segs).1.Nodup ∧ (leafPathsGo cs segs).2.Nodup) := by
          intro segs
          induction segs with
          | nil =>
            intro _
            rw [leafPathsGo_nil]
            exact ⟨List.nodup_nil, List.nodup_nil⟩
          | cons seg rest ihs =>
            intro hnd
            obtain ⟨hsegnotin, hndrest⟩ := List.nodup_cons.mp hnd
            have hres := ihs hndrest
            rw [leafPathsGo]
            cases hf : findSeg seg cs with
            | none =>
              simp only [hf]
              exact hres
            | some child =>
              simp only [hf]
              have hwchild : wfb child = true := wfbList_mem hw.2 (findSeg_some_mem hf)
              have hchild : sizeOf child ≤ m :=
                le_trans (le_of_lt (sizeOf_findSeg hf)) hcs
              constructor
              · rw [List.nodup_append]
                refine ⟨?_, hres.1, ?_⟩
                · cases hck : child.childrenOpt with
                  | none => exact List.nodup_nil
                  | some l =>
                    exact (ih child hchild hwchild).map
                      (fun a b hab => (List.cons_eq_cons.mp hab).2)
                · intro q hq1 hq2
                  have hq1' : ∃ p, q = seg :: p := by
                    cases hck : child.childrenOpt with
                    | none => rw [hck] at hq1; cases hq1
                    | some l =>
                      rw [hck] at hq1
                      obtain ⟨p, _, rfl⟩ := List.mem_map.mp hq1
                      exact ⟨p, rfl⟩
                  obtain ⟨p, rfl⟩ := hq1'
                  obtain ⟨s', hs', _, _, _, p', _, heq⟩ :=
                    (mem_leafPathsGo cs rest _).1.mp hq2
                  obtain ⟨h1, _⟩ := List.cons_eq_cons.mp heq
                  rw [h1] at hsegnotin
                  exact hsegnotin hs'
              · rw [List.nodup_append]
                refine ⟨?_, hres.2, ?_⟩
                · cases hk : child.isKeyFlag with
                  | false => exact List.nodup_nil
                  | true => simp
                · intro q hq1 hq2
                  have hq1' : q = [seg] := by
                    cases hk : child.isKeyFlag with
                    | false => rw [hk] at hq1; cases hq1
                    | true =>
                      rw [hk] at hq1
                      simp at hq1
                      exact hq1
                  subst hq1'
                  obtain ⟨s', hs', _, _, _, heq⟩ :=
                    (mem_leafPathsGo cs rest _).2.mp hq2
                  obtain ⟨h1, _⟩ := List.cons_eq_cons.mp heq
                  rw [h1] at hsegnotin
                  exact hsegnotin hs'
        have hsegsnd : (sortLower (cs.map (·.1))).Nodup := by
          rw [sortLower, (List.perm_insertionSort lowerLe _).nodup_iff]
          exact (nodupSegs_iff cs).mp hw.1
        have hres := hgo _ hsegsnd
        rw [leafPaths_some, List.nodup_append]
        refine ⟨hres.1, hres.2, ?_⟩
        intro q hq1 hq2
        obtain ⟨s', _, child, hfind, _, p, hp, rfl⟩ :=
          (mem_leafPathsGo cs _ _).1.mp hq1
        obtain ⟨s'', _, child', _, _, heq⟩ := (mem_leafPathsGo cs _ _).2.mp hq2
        obtain ⟨_, h2⟩ := List.cons_eq_cons.mp heq
        have hpne : p ≠ [] := ((mem_leafPaths child p).mp hp).1
        exact hpne h2

theorem leafPaths_nodup (t : PrefixTree) (hw : wfb t = true) : (leafPaths t).Nodup :=
  leafPaths_nodup_bound (sizeOf t) t (le_refl _) hw

theorem string_mk_data (s : String) : (⟨s.data⟩ : String) = s := by
  cases s
  rfl

theorem string_ne_empty_of_data {s : String} (h : s.data ≠ []) : s ≠ "" := by
  intro hh
  rw [hh] at h
  exact h rfl

theorem joinChars_two (x y : List Char) (ys : List (List Char)) :
    joinChars (x :: y :: ys) = x ++ ':' :: joinChars (y :: ys) := rfl

theorem joinKey_single (s : String) : joinKey [s] = s := by
  rw [joinKey]
  show (⟨joinChars [s.data]⟩ : String) = s
  rw [show joinChars [s.data] = s.data from rfl, string_mk_data]

theorem joinKey_cons (s r : String) (rs : List String) :
    joinKey (s :: r :: rs) = s ++ ":" ++ joinKey (r :: rs) := by
  rw [joinKey, joinKey]
  show (⟨joinChars (s.data :: r.data :: rs.map String.data)⟩ : String)
    = s ++ ":" ++ (⟨joinChars (r.data :: rs.map String.data)⟩ : String)
  rw [joinChars_two]
  have hdata : (s ++ ":" ++ (⟨joinChars (r.data :: rs.map String.data)⟩ : String)).data
      = s.data ++ ':' :: joinChars (r.data :: rs.map String.data) := by
    rw [String.data_append, String.data_append, List.append_assoc]
    rfl
  cases hres : s ++ ":" ++ (⟨joinChars (r.data :: rs.map String.data)⟩ : String) with
  | mk d =>
    rw [hres] at hdata
    simp at hdata
    rw [hdata]

theorem mkId_empty (s : String) : mkId "" s = s := by
  rw [mkId, if_pos rfl]

theorem mkId_ne (pfx s : String) (h : pfx ≠ "") : mkId pfx s = pfx ++ ":" ++ s := by
  rw [mkId, if_neg h]

theorem mkId_ne_empty (pfx s : String) (h : pfx ≠ "") : mkId pfx s ≠ "" := by
  rw [mkId_ne pfx s h]
  apply string_ne_empty_of_data
  rw [String.data_append, String.data_append]
  simp

theorem idPath_cons (pfx s : String) (p : List String) :
    idPath pfx (s :: p) = idPath (mkId pfx s) p := rfl

theorem idPath_ne_pfx : ∀ (p : List String) (pfx : String), pfx ≠ "" → p ≠ [] →
    idPath pfx p = pfx ++ ":" ++ joinKey p := by
  intro p
  induction p with
  | nil => intro pfx _ h; exact absurd rfl h
  | cons s rest ih =>
    intro pfx hpfx _
    cases rest with
    | nil =>
      rw [idPath_cons, joinKey_single]
      show mkId pfx s = pfx ++ ":" ++ s
      exact mkId_ne pfx s hpfx
    | cons r rs =>
      rw [idPath_cons, ih (mkId pfx s) (mkId_ne_empty pfx s hpfx) (by simp),
        joinKey_cons, mkId_ne pfx s hpfx]
      simp [String.append_assoc]

theorem idPath_root (s : String) (rest : List String) (hs : s ≠ "") :
    idPath "" (s :: rest) = joinKey (s :: rest) := by
  rw [idPath_cons, mkId_empty]
  cases rest with
  | nil => exact (joinKey_single s).symm
  | cons r rs =>
    rw [idPath_ne_pfx (r :: rs) s hs (by simp), joinKey_cons]

theorem splitKey_ne_nil (k : String) : splitKey k ≠ [] := by
  rw [splitKey]
  intro h
  exact splitChars_ne_nil k.data (List.map_eq_nil_iff.mp h)

theorem joinKey_splitKey (k : String) : joinKey (splitKey k) = k := by
  rw [joinKey]
  have h : (splitKey k).map String.data = splitChars k.data := splitKey_data k
  rw [h, joinChars_splitChars, string_mk_data]

theorem splitKey_head (k : String) (h1 : k ≠ "") (h2 : k.data.head? ≠ some ':') :
    ∃ s rest, splitKey k = s :: rest ∧ s ≠ "" := by
  cases hd : k.data with
  | nil =>
    exfalso
    apply h1
    cases k
    simp at hd
    rw [hd]
  | cons c cd =>
    have hc : ¬c = ':' := by
      intro hh
      rw [hd, hh] at h2
      exact h2 rfl
    rw [splitKey, hd]
    cases hs : splitChars cd with
    | nil => exact absurd hs (splitChars_ne_nil cd)
    | cons p ps =>
      refine ⟨⟨c :: p⟩, ps.map (fun l => ⟨l⟩), ?_, by
        apply string_ne_empty_of_data
        simp⟩
      have hsplit : splitChars (c :: cd) = (c :: p) :: ps := by
        rw [splitChars, hs]
        show (if c = ':' then [] :: p :: ps else (c :: p) :: ps) = (c :: p) :: ps
        rw [if_neg hc]
      rw [hsplit]
      rfl

theorem idPath_splitKey (k : String) (h1 : k ≠ "") (h2 : k.data.head? ≠ some ':') :
    idPath "" (splitKey k) = k := by
  obtain ⟨s, rest, heq, hs⟩ := splitKey_head k h1 h2
  rw [heq, idPath_root s rest hs, ← heq, joinKey_splitKey]

/-- C10 counterexample: the key ":x" is non-empty, yet the id-building step
(`prefix + ":" + segment if prefix else segment`) drops the leading empty component:
the only leaf id in the flattened output is "x", so rejoining the path components
does not reconstruct the inserted key. -/
theorem C10_roundtrip_cex :
    (":x" : String) ≠ ""
    ∧ leafIdsOf ((buildTrieKeys [":x"]).to_nodes "") = ["x"]
    ∧ (":x" : String) ∉ leafIdsOf ((buildTrieKeys [":x"]).to_nodes "") := by
  have h2 : leafIdsOf ((buildTrieKeys [":x"]).to_nodes "") = ["x"] := by
    rw [leafIdsOf_to_nodes]
    simp [buildTrieKeys, splitKey, splitChars, PrefixTree.insert, emptyTree, findSeg,
      leafPaths_some, leafPathsGo, sortLower, List.insertionSort, List.orderedInsert,
      PrefixTree.childrenOpt, PrefixTree.isKeyFlag, idPath, mkId, leafPaths_none]
  refine ⟨by decide, h2, ?_⟩
  rw [h2]
  decide

/-- C10 (amended): for every finite list of inserted key strings that are non-empty
and do not start with the delimiter ":", the leaf entries (icon "key") in the
flattened materialized output have ids that are exactly the set of inserted keys,
each appearing exactly once; a leaf's id, built by rejoining path components with
":", reconstructs the original key string.  Keys starting with ":" are excluded:
for them the id-building step drops the leading empty component. -/
theorem C10_leaf_roundtrip (ks : List String)
    (h1 : ∀ k ∈ ks, k ≠ "") (h2 : ∀ k ∈ ks, k.data.head? ≠ some ':') :
    (∀ i, i ∈ leafIdsOf ((buildTrieKeys ks).to_nodes "") ↔ i ∈ ks)
    ∧ (leafIdsOf ((buildTrieKeys ks).to_nodes "")).Nodup := by
  have hT : buildTrieKeys ks = buildTrie (ks.map splitKey) := buildTrieKeys_eq ks
  have hwf : wfb (buildTrieKeys ks) = true := by
    rw [hT]
    exact wfb_buildTrie _
  have hrel := leafIdsOf_to_nodes (buildTrieKeys ks) ""
  have hmemp : ∀ p, p ∈ leafPaths (buildTrieKeys ks) ↔ ∃ k, k ∈ ks ∧ p = splitKey k := by
    intro p
    rw [mem_leafPaths]
    constructor
    · rintro ⟨hne, hk⟩
      rw [hT, isKeyAt_buildTrie] at hk
      obtain ⟨k, hkmem, rfl⟩ := List.mem_map.mp hk
      exact ⟨k, hkmem, rfl⟩
    · rintro ⟨k, hkmem, rfl⟩
      refine ⟨splitKey_ne_nil k, ?_⟩
      rw [hT, isKeyAt_buildTrie]
      exact List.mem_map.mpr ⟨k, hkmem, rfl⟩
  constructor
  · intro i
    rw [hrel]
    constructor
    · intro hi
      obtain ⟨p, hp, rfl⟩ := List.mem_map.mp hi
      obtain ⟨k, hk, rfl⟩ := (hmemp p).mp hp
      rw [idPath_splitKey k (h1 k hk) (h2 k hk)]
      exact hk
    · intro hi
      apply List.mem_map.mpr
      exact ⟨splitKey i, (hmemp _).mpr ⟨i, hi, rfl⟩,
        idPath_splitKey i (h1 i hi) (h2 i hi)⟩
  · rw [hrel]
    apply List.Nodup.map_on ?_ (leafPaths_nodup _ hwf)
    intro p1 hp1 p2 hp2 heq
    obtain ⟨k1, hk1, rfl⟩ := (hmemp p1).mp hp1
    obtain ⟨k2, hk2, rfl⟩ := (hmemp p2).mp hp2
    rw [idPath_splitKey k1 (h1 k1 hk1) (h2 k1 hk1),
      idPath_splitKey k2 (h1 k2 hk2) (h2 k2 hk2)] at heq
    rw [heq]

/-- C10 amended witness for the keys user:1, user:2, order:5. -/
theorem C10_leaf_roundtrip_witness :
    (∀ i, i ∈ leafIdsOf ((buildTrieKeys ["user:1", "user:2", "order:5"]).to_nodes "")
        ↔ i ∈ ["user:1", "user:2", "order:5"])
    ∧ (leafIdsOf ((buildTrieKeys ["user:1", "user:2", "order:5"]).to_nodes "")).Nodup :=
  C10_leaf_roundtrip ["user:1", "user:2", "order:5"] (by decide) (by decide)
